import Mathlib

/-!
A shallow embedding of `assignments_sync.js` (AssignmentsSync): a reconciler
that keeps a Google-Calendar-like event store synchronized with a spreadsheet
of tasks.  Remote I/O is modelled by explicit traces; the external
moment-timezone library is modelled from the spec (see `momentParse` and the
`resolve` parameter of `eventsAreEqual`).
-/

set_option autoImplicit false

namespace AssignmentsSync

/-! ## Retry governor (`retryWithBackoff`, source lines 60-77) -/

/-- Outcome of a single invocation of the wrapped remote operation:
either a successful value or a failure carrying `error.response?.status`
(`none` models a missing `response`, e.g. a network error). -/
inductive AttemptResult where
  | success (v : Nat)
  | failure (status : Option Nat)
deriving DecidableEq

/-- Result of the whole retry wrapper: a returned value, an immediately
propagated non-429 error, or the final `Exceeded max retries.` throw. -/
inductive RetryResult where
  | ok (v : Nat)
  | err (status : Option Nat)
  | exhausted
deriving DecidableEq

/-- The body of the `for (attempt ...)` loop of `retryWithBackoff`:
`op k` is what the operation does on its `k`-th invocation.  Returns the
result together with the number of invocations performed and the list of
pre-jitter delays (`baseDelay * 2 ^ attempt`) that were waited. -/
def retryAux (op : Nat → AttemptResult) (baseDelay : Nat) :
    Nat → Nat → RetryResult × Nat × List Nat
  | _, 0 => (.exhausted, 0, [])
  | attempt, rem + 1 =>
    match op attempt with
    | .success v => (.ok v, 1, [])
    | .failure st =>
      if st = some 429 then
        let d := baseDelay * 2 ^ attempt
        let r := retryAux op baseDelay (attempt + 1) rem
        (r.1, r.2.1 + 1, d :: r.2.2)
      else (.err st, 1, [])

/-- `retryWithBackoff(operation, maxRetries = 5, baseDelay = 1000)`. -/
def retryWithBackoff (op : Nat → AttemptResult) (maxRetries baseDelay : Nat) :
    RetryResult × Nat × List Nat :=
  retryAux op baseDelay 0 maxRetries

/-! ## Row normalization (`getNormalizedSpreadsheet`, `getSpreadsheetData`) -/

/-- A normalized task record, as pushed onto `data` in `getSpreadsheetData`
(source lines 156-166).  Field order follows the source object literal:
in `assignments_sync.js` the object maps `row[2]` to `'Due Time'` and
`row[3]` to `'Due Date'`. -/
structure Task where
  Origin : String
  Name : String
  DueTime : String
  DueDate : String
  Status : String
  Difficulty : String
  Priority : String
  Notes : String
  UUID : String
deriving DecidableEq

/-- `row[k] || "Unknown"`: an empty (or missing, after padding) cell is
replaced by the sentinel. -/
def orUnknown (s : String) : String := if s = "" then "Unknown" else s

/-- Padding performed by `getNormalizedSpreadsheet` (source lines 113-117):
rows shorter than 9 cells are extended with `""`.  (The source range is
`A2:I`, so rows never exceed 9 cells.) -/
def padRow (row : List String) : List String :=
  row ++ List.replicate (9 - row.length) ""

/-- Normalization of the whole `values` array. -/
def normalizeValues (vals : List (List String)) : List (List String) :=
  vals.map padRow

/-- The `data.push({...})` object literal of `getSpreadsheetData`
(source lines 156-166): positional access into the padded row, with
`|| "Unknown"` defaults, and the already-resolved `uuid`. -/
def rowToTask (uuid : String) (row : List String) : Task :=
  { Origin := orUnknown (row.getD 0 "")
    Name := orUnknown (row.getD 1 "")
    DueTime := orUnknown (row.getD 2 "")
    DueDate := orUnknown (row.getD 3 "")
    Status := orUnknown (row.getD 4 "")
    Difficulty := orUnknown (row.getD 5 "")
    Priority := orUnknown (row.getD 6 "")
    Notes := orUnknown (row.getD 7 "")
    UUID := uuid }

/-! ## Identity backfill with the optimistic-concurrency guard
(`getSpreadsheetData` and `throwIfSpreadsheetChanged`, source lines 122-189).

The external world is modelled by `rereads : Nat → List (List String)`, the
raw content returned by the `k`-th re-read that `throwIfSpreadsheetChanged`
performs, and `gen : Nat → String`, the `k`-th value produced by
`crypto.randomUUID()`.  The run records a trace of guard checks and identity
writes. -/

/-- One observable step of the identity-backfill phase: a
`throwIfSpreadsheetChanged` comparison, or a `values.update` writing `uuid`
to spreadsheet row `rowIndex` (one-based, header included). -/
inductive SheetOp where
  | check
  | write (rowIndex : Nat) (uuid : String)
deriving DecidableEq

/-- The only error the modelled backfill raises: the
`Spreadsheet required updating but content changed during sync!` throw. -/
inductive SheetErr where
  | concurrentModification
deriving DecidableEq

/-- Result of a modelled `getSpreadsheetData` run. -/
structure SheetRunResult where
  result : Except SheetErr (List Task)
  trace : List SheetOp

/-- `newValues[rowIndex-2][8] = uuid` (source line 185): write cell `j` of
row `i` of the snapshot. -/
def setCell (vals : List (List String)) (i j : Nat) (v : String) :
    List (List String) :=
  match vals.get? i with
  | none => vals
  | some row => vals.set i (row.set j v)

/-- First loop of `getSpreadsheetData` (source lines 143-167): walk the
normalized rows, building `data` and `uuidsToBeUpdated`; each row whose
ninth cell is empty triggers a `throwIfSpreadsheetChanged` against the
(still unmutated) snapshot before being queued.  Returns `none` on the
concurrent-modification throw.  `i` is the zero-based row index, `g` the
number of uuids generated so far, `ck` the number of re-reads performed
so far. -/
def phase1 (gen : Nat → String) (rereads : Nat → List (List String))
    (snapshot : List (List String)) :
    List (List String) → Nat → Nat → Nat →
    Option (List Task × List (Nat × String) × Nat) × List SheetOp
  | [], _, _, ck => (some ([], [], ck), [])
  | row :: rest, i, g, ck =>
    let cell8 := row.getD 8 ""
    if cell8 = "" then
      if normalizeValues (rereads ck) = snapshot then
        let u := gen g
        let r := phase1 gen rereads snapshot rest (i + 1) (g + 1) (ck + 1)
        match r.1 with
        | some (ts, pend, ck2) =>
          (some (rowToTask u row :: ts, (i + 2, u) :: pend, ck2), .check :: r.2)
        | none => (none, .check :: r.2)
      else (none, [.check])
    else
      let r := phase1 gen rereads snapshot rest (i + 1) g ck
      match r.1 with
      | some (ts, pend, ck2) =>
        (some (rowToTask cell8 row :: ts, pend, ck2), r.2)
      | none => (none, r.2)

/-- Second loop of `getSpreadsheetData` (source lines 171-186): for each
queued `{rowIndex, uuid}`, re-check freshness against the current snapshot,
write the identity cell, then mirror the write into the snapshot
(`newValues[rowIndex-2][8] = uuid`).  Returns `false` on the
concurrent-modification throw. -/
def phase2 (rereads : Nat → List (List String)) :
    List (Nat × String) → List (List String) → Nat → Bool × List SheetOp
  | [], _, _ => (true, [])
  | (ri, u) :: rest, snap, ck =>
    if normalizeValues (rereads ck) = snap then
      let r := phase2 rereads rest (setCell snap (ri - 2) 8 u) (ck + 1)
      (r.1, .check :: .write ri u :: r.2)
    else (false, [.check])

/-- The whole of `getSpreadsheetData` (source lines 132-189): normalize the
first read, run the data/queue loop, then the write loop. -/
def getSpreadsheetData (raw : List (List String)) (gen : Nat → String)
    (rereads : Nat → List (List String)) : SheetRunResult :=
  let snapshot := normalizeValues raw
  let r1 := phase1 gen rereads snapshot snapshot 0 0 0
  match r1.1 with
  | none => ⟨.error .concurrentModification, r1.2⟩
  | some (tasks, pend, ck) =>
    let r2 := phase2 rereads pend snapshot ck
    if r2.1 then ⟨.ok tasks, r1.2 ++ r2.2⟩
    else ⟨.error .concurrentModification, r1.2 ++ r2.2⟩

/-- The `uuidsToBeUpdated` queue a run will build, as a pure function of the
normalized rows: one `(i + 2, gen g)` entry per row whose ninth cell is
empty. -/
def pendingOf (gen : Nat → String) : List (List String) → Nat → Nat →
    List (Nat × String)
  | [], _, _ => []
  | row :: rest, i, g =>
    if row.getD 8 "" = "" then (i + 2, gen g) :: pendingOf gen rest (i + 1) (g + 1)
    else pendingOf gen rest (i + 1) g

/-- The `data` list a run will build, as a pure function of the normalized
rows. -/
def tasksOf (gen : Nat → String) : List (List String) → Nat → List Task
  | [], _ => []
  | row :: rest, g =>
    let cell8 := row.getD 8 ""
    if cell8 = "" then rowToTask (gen g) row :: tasksOf gen rest (g + 1)
    else rowToTask cell8 row :: tasksOf gen rest g

/-- The identity writes recorded in a trace. -/
def writesOf (tr : List SheetOp) : List (Nat × String) :=
  tr.filterMap fun op =>
    match op with
    | .check => none
    | .write ri u => some (ri, u)

/-- Number of rows, among the given normalized rows, whose ninth cell is
empty — the rows that need a freshly generated identity. -/
def needyCount : List (List String) → Nat
  | [] => 0
  | row :: rest => (if row.getD 8 "" = "" then 1 else 0) + needyCount rest

/-! ## Date parsing and event projection (`getEventData`, source lines
191-218). -/

/-- Split a character list on a separator character. -/
def splitOnChar (c : Char) : List Char → List (List Char)
  | [] => [[]]
  | x :: xs =>
    let r := splitOnChar c xs
    if x = c then [] :: r
    else
      match r with
      | [] => [[x]]
      | y :: ys => (x :: y) :: ys

/-- Interpret a nonempty all-digit character list as a number. -/
def digitsToNat (l : List Char) : Option Nat :=
  if l = [] then none
  else if l.all Char.isDigit then
    some (l.foldl (fun acc c => acc * 10 + (c.toNat - 48)) 0)
  else none

/-- Zero-pad a number to two digits. -/
def pad2 (n : Nat) : String := (if n < 10 then "0" else "") ++ toString n

/-- Canonical rendering of a parsed local date-time. -/
def renderDateTime (y m d h mi s : Nat) : String :=
  toString y ++ "-" ++ pad2 m ++ "-" ++ pad2 d ++ "T" ++ pad2 h ++ ":" ++
    pad2 mi ++ ":" ++ pad2 s

/-- Modelled from the spec: the external moment-timezone call
`moment.tz(dateString, 'L|LTS', TIMEZONE)` followed by `.toISOString(true)`
(the "Clock/Timezone Resolver" interface, out of scope for the core).  The
format `'L|LTS'` is `M/D/YYYY|h:mm:ss A`; a malformed or empty date/time
yields `none` (moment's `isValid()` false), a well-formed one yields a
canonical absolute date-time string (timezone-offset resolution is the
external library's concern and is not modelled). -/
def momentParse (s : String) : Option String :=
  match splitOnChar '|' s.toList with
  | [datePart, timePart] =>
    match splitOnChar '/' datePart with
    | [ms, ds, ys] =>
      match digitsToNat ms, digitsToNat ds, digitsToNat ys with
      | some m, some d, some y =>
        if 1 ≤ m ∧ m ≤ 12 ∧ 1 ≤ d ∧ d ≤ 31 then
          match splitOnChar ' ' timePart with
          | [hms, ap] =>
            if ap = "AM".toList ∨ ap = "PM".toList then
              match splitOnChar ':' hms with
              | [hs, mins, ss] =>
                match digitsToNat hs, digitsToNat mins, digitsToNat ss with
                | some h, some mi, some sec =>
                  if 1 ≤ h ∧ h ≤ 12 ∧ mi ≤ 59 ∧ sec ≤ 59 then
                    let h24 := if ap = "PM".toList then h % 12 + 12 else h % 12
                    some (renderDateTime y m d h24 mi sec)
                  else none
                | _, _, _ => none
              | _ => none
            else none
          | _ => none
        else none
      | _, _, _ => none
    | _ => none
  | _ => none

/-- `{dateTime, timeZone}` as used for `start` and `end`. -/
structure EventTime where
  dateTime : String
  timeZone : String
deriving DecidableEq

/-- An event held by the Event Store (an item of `calendar.events.list`):
`uuid` is `event.extendedProperties?.private?.uuid`, which is missing
(`none`) when the event carries no recognizable embedded identity. -/
structure CalEvent where
  id : String
  summary : String
  description : String
  start : EventTime
  «end» : EventTime
  uuid : Option String
deriving DecidableEq

/-- The projected payload built by `getEventData` (a `requestBody`: it has
no store-assigned `id`, and its embedded identity is always present). -/
structure EventData where
  summary : String
  description : String
  start : EventTime
  «end» : EventTime
  uuid : String
deriving DecidableEq

/-- `getEventData(assignment)` (source lines 191-218), parameterized by the
configured `TIMEZONE` string. -/
def getEventData (tz : String) (a : Task) : Except String EventData :=
  let originalDateTimeString := a.DueDate ++ "|" ++ a.DueTime
  match momentParse originalDateTimeString with
  | none => .error ("Moment could not parse time " ++ originalDateTimeString)
  | some eventDateTime =>
    .ok { summary := (if a.Status = "2 - Done" then "DONE - " else "") ++
            a.Origin ++ ": " ++ a.Name
          description := "Difficulty: " ++ a.Difficulty ++ "\nPriority: " ++
            a.Priority ++ "\nNotes: " ++ a.Notes
          start := ⟨eventDateTime, tz⟩
          «end» := ⟨eventDateTime, tz⟩
          uuid := a.UUID }

/-! ## Event equality (`eventsAreEqual`, source lines 220-232).

`resolve dateTime timeZone` models the external
`moment.tz(dateTime, timeZone).unix()` resolution of a date-time string plus
timezone label to an absolute instant. -/

/-- The record `normalizeEvent` builds before the `isEqual` comparison. -/
structure NormalizedEvent where
  summary : String
  description : String
  start : Int
  «end» : Int
deriving DecidableEq

/-- `eventsAreEqual(event1, event2)`: the first argument is an existing
store event, the second a freshly projected payload — the only pairing the
source ever compares. -/
def eventsAreEqual (resolve : String → String → Int) (e1 : CalEvent)
    (e2 : EventData) : Bool :=
  let a : NormalizedEvent :=
    ⟨e1.summary, e1.description, resolve e1.start.dateTime e1.start.timeZone,
      resolve e1.«end».dateTime e1.«end».timeZone⟩
  let b : NormalizedEvent :=
    ⟨e2.summary, e2.description, resolve e2.start.dateTime e2.start.timeZone,
      resolve e2.«end».dateTime e2.«end».timeZone⟩
  a = b

/-! ## The SyncIndex: a JavaScript `Map` over `Option String` keys
(`existingEventMap`, source lines 248-250).  `new Map(pairs)` keeps, for a
repeated key, the value of the last pair, at the position of the first;
`Map.prototype.delete` removes the (unique) entry with the key. -/

/-- The JS `Map` from embedded identity (or `none` for `undefined`) to
store event, as an insertion-ordered entry list. -/
abbrev JsMap := List (Option String × CalEvent)

/-- `Map.prototype.set`: replace in place if the key exists, else append. -/
def mapSet (m : JsMap) (k : Option String) (v : CalEvent) : JsMap :=
  match m with
  | [] => [(k, v)]
  | (k', v') :: rest =>
    if k' = k then (k, v) :: rest else (k', v') :: mapSet rest k v

/-- `Map.prototype.get`. -/
def mapGet (m : JsMap) (k : Option String) : Option CalEvent :=
  match m with
  | [] => none
  | (k', v) :: rest => if k' = k then some v else mapGet rest k

/-- `Map.prototype.delete`. -/
def mapDelete (m : JsMap) (k : Option String) : JsMap :=
  match m with
  | [] => []
  | (k', v) :: rest => if k' = k then rest else (k', v) :: mapDelete rest k

/-- `new Map(existingEvents.data.items.map(event =>
[event.extendedProperties?.private?.uuid, event]))`. -/
def buildIndex (events : List CalEvent) : JsMap :=
  events.foldl (fun m ev => mapSet m ev.uuid ev) []

/-! ## The reconciler (`syncWithCalendar`, source lines 252-287). -/

/-- A store operation issued by the reconciler. -/
inductive Op where
  | create (payload : EventData)
  | update (eventId : String) (payload : EventData)
  | delete (eventId : String)
deriving DecidableEq

/-- The store event id an operation addresses (`none` for a create, which
has no id yet). -/
def Op.targetId : Op → Option String
  | .create _ => none
  | .update eventId _ => some eventId
  | .delete eventId => some eventId

/-- The `for (const assignment of assignments)` loop: project, look up by
identity, update when unequal, delete the index entry, or create.  A
projection failure (DateParseError) aborts the run. -/
def applyTasks (resolve : String → String → Int) (tz : String) :
    List Task → JsMap → List Op → Except String (List Op × JsMap)
  | [], m, ops => .ok (ops, m)
  | t :: ts, m, ops =>
    match getEventData tz t with
    | .error e => .error e
    | .ok eventData =>
      match mapGet m (some t.UUID) with
      | some existingEvent =>
        let ops' := if eventsAreEqual resolve existingEvent eventData then ops
          else ops ++ [Op.update existingEvent.id eventData]
        applyTasks resolve tz ts (mapDelete m (some t.UUID)) ops'
      | none => applyTasks resolve tz ts m (ops ++ [Op.create eventData])

/-- One reconciliation run: build the index, run the task loop, then delete
every event still in the index, in index order. -/
def runReconcile (resolve : String → String → Int) (tz : String)
    (tasks : List Task) (events : List CalEvent) : Except String (List Op) :=
  match applyTasks resolve tz tasks (buildIndex events) [] with
  | .error e => .error e
  | .ok (ops, m) => .ok (ops ++ m.map fun p => Op.delete p.2.id)

/-- Stated from the spec's words (§4.6), for comparison with the source
loop: for each Task in order, project it, look it up; found-and-equal is a
no-op with index removal, found-and-unequal one full-payload update with
index removal, not-found one create; after all Tasks, one delete per entry
remaining in the index. -/
def reconcilerSpec (resolve : String → String → Int) (tz : String) :
    List Task → JsMap → Except String (List Op)
  | [], m => .ok (m.map fun p => Op.delete p.2.id)
  | t :: ts, m =>
    match getEventData tz t with
    | .error e => .error e
    | .ok eventData =>
      match mapGet m (some t.UUID) with
      | some existingEvent =>
        match reconcilerSpec resolve tz ts (mapDelete m (some t.UUID)) with
        | .error e => .error e
        | .ok rest =>
          .ok ((if eventsAreEqual resolve existingEvent eventData then []
            else [Op.update existingEvent.id eventData]) ++ rest)
      | none =>
        match reconcilerSpec resolve tz ts m with
        | .error e => .error e
        | .ok rest => .ok (Op.create eventData :: rest)

/-! ## Concrete instances used by the end-to-end checks -/

/-- The end-to-end example task (spec §8): Origin defaulted to the
sentinel, identity "a". -/
def taskEssay : Task :=
  ⟨"Unknown", "Essay", "11:59:00 PM", "3/1/2025", "1 - Not Done",
    "Unknown", "Unknown", "Unknown", "a"⟩

/-- The payload `getEventData` projects `taskEssay` to. -/
def essayEvent (tz : String) : EventData :=
  ⟨"Unknown: Essay", "Difficulty: Unknown\nPriority: Unknown\nNotes: Unknown",
    ⟨"2025-03-01T23:59:00", tz⟩, ⟨"2025-03-01T23:59:00", tz⟩, "a"⟩

/-- A task whose date cells hold the sentinel, so its combined date-time
string does not parse. -/
def taskBad : Task :=
  ⟨"Unknown", "Unknown", "Unknown", "Unknown", "Unknown",
    "Unknown", "Unknown", "Unknown", "b"⟩

/-- A store event carrying no embedded identity. -/
def strayEvent : CalEvent :=
  ⟨"e1", "s", "d", ⟨"x", "UTC"⟩, ⟨"x", "UTC"⟩, none⟩

/-- An earlier store event also carrying no embedded identity. -/
def strayEvent0 : CalEvent :=
  ⟨"e0", "s0", "d0", ⟨"x", "UTC"⟩, ⟨"x", "UTC"⟩, none⟩

/-- The store event a previous run would have created for `taskEssay`. -/
def essayStored (tz : String) : CalEvent :=
  ⟨"evt1", "Unknown: Essay",
    "Difficulty: Unknown\nPriority: Unknown\nNotes: Unknown",
    ⟨"2025-03-01T23:59:00", tz⟩, ⟨"2025-03-01T23:59:00", tz⟩, some "a"⟩

/-- Two store events sharing the embedded identity "x". -/
def dupA : CalEvent :=
  ⟨"d1", "sA", "dA", ⟨"x", "UTC"⟩, ⟨"x", "UTC"⟩, some "x"⟩

def dupB : CalEvent :=
  ⟨"d2", "sB", "dB", ⟨"x", "UTC"⟩, ⟨"x", "UTC"⟩, some "x"⟩

/-- An instant resolver for concrete checks: the length of the date-time
string, ignoring the timezone label. -/
def lenResolve : String → String → Int := fun d _ => (d.length : Int)

/-- A pair of existing events differing from each other only in the raw
timezone label and in the embedded identity. -/
def tzOnlyA : CalEvent :=
  ⟨"e2", "S", "D", ⟨"2025-03-01T23:59:00", "America/New_York"⟩,
    ⟨"2025-03-01T23:59:00", "America/New_York"⟩, some "z"⟩

def tzOnlyB : EventData :=
  ⟨"S", "D", ⟨"2025-03-01T23:59:00", "UTC"⟩,
    ⟨"2025-03-01T23:59:00", "UTC"⟩, "y"⟩

/-- An operation that is rate-limited twice, then succeeds. -/
def twoRateLimits : Nat → AttemptResult :=
  fun k => if k < 2 then .failure (some 429) else .success 7

/-- A sheet with two rows, both lacking their identity cell. -/
def cexRaw : List (List String) :=
  [["o0", "n0", "t0", "d0", "s0", "f0", "p0", "x0"],
   ["o1", "n1", "t1", "d1", "s1", "f1", "p1", "x1"]]

/-- Deterministic stand-in for `crypto.randomUUID()`. -/
def cexGen : Nat → String := fun k => "u" ++ toString k

/-- An external sheet that never changes: every re-read returns the same
original content. -/
def cexRereads : Nat → List (List String) := fun _ => cexRaw

/-- A sheet whose first row already has an identity and whose second row
lacks one. -/
def okRaw : List (List String) :=
  [["o0", "n0", "t0", "d0", "s0", "f0", "p0", "x0", "u9"],
   ["o1", "n1", "t1", "d1", "s1", "f1", "p1", "x1"]]

def okRereads : Nat → List (List String) := fun _ => okRaw

/-- The tasks a run over `okRaw` produces. -/
def okTask0 : Task := ⟨"o0", "n0", "t0", "d0", "s0", "f0", "p0", "x0", "u9"⟩

def okTask1 : Task := ⟨"o1", "n1", "t1", "d1", "s1", "f1", "p1", "x1", "u0"⟩

/-- A full 9-cell row with pairwise distinct cell values. -/
def swapRow : List String := ["o", "n", "c2", "c3", "s", "f", "p", "x", "u"]

/-! ## Lemmas about the retry governor -/

theorem retryAux_le (op : Nat → AttemptResult) (bd : Nat) :
    ∀ rem a, (retryAux op bd a rem).2.1 ≤ rem := by
  intro rem
  induction rem with
  | zero => intro a; simp [retryAux]
  | succ n ih =>
    intro a
    simp only [retryAux]
    cases op a with
    | success v => simp
    | failure st =>
      by_cases h : st = some 429
      · simpa [h] using Nat.succ_le_succ (ih (a + 1))
      · simp [h]

theorem pow_step_lt (bd a : Nat) (hbd : 0 < bd) : bd * 2 ^ a < bd * 2 ^ (a + 1) := by
  have hpos : 0 < bd * 2 ^ a := Nat.mul_pos hbd (Nat.pow_pos (by norm_num))
  have he : bd * 2 ^ (a + 1) = bd * 2 ^ a * 2 := by
    rw [Nat.pow_succ, Nat.mul_assoc]
  omega

theorem retryAux_delays_lb (op : Nat → AttemptResult) (bd : Nat) (hbd : 0 < bd) :
    ∀ rem a, List.Chain' (· < ·) (retryAux op bd a rem).2.2 ∧
      ∀ d ∈ (retryAux op bd a rem).2.2, bd * 2 ^ a ≤ d := by
  intro rem
  induction rem with
  | zero => intro a; simp [retryAux]
  | succ n ih =>
    intro a
    have ihs := ih (a + 1)
    simp only [retryAux]
    cases op a with
    | success v => simp
    | failure st =>
      dsimp only
      by_cases h : st = some 429
      · rw [if_pos h]
        refine ⟨?_, ?_⟩
        · rw [List.chain'_cons']
          refine ⟨?_, ihs.1⟩
          intro y hy
          have hmem : y ∈ (retryAux op bd (a + 1) n).2.2 := by
            cases hh : (retryAux op bd (a + 1) n).2.2 with
            | nil => rw [hh] at hy; simp at hy
            | cons z zs =>
              rw [hh] at hy
              simp at hy
              subst hy
              simp [hh]
          exact Nat.lt_of_lt_of_le (pow_step_lt bd a hbd) (ihs.2 y hmem)
        · intro d hd
          rcases List.mem_cons.mp hd with h1 | h2
          · subst h1; exact Nat.le_refl _
          · exact Nat.le_trans (Nat.le_of_lt (pow_step_lt bd a hbd)) (ihs.2 d h2)
      · rw [if_neg h]
        simp

theorem retryAux_skip (op : Nat → AttemptResult) (bd : Nat) :
    ∀ k rem a, (∀ j, j < k → op (a + j) = .failure (some 429)) →
      retryAux op bd a (k + rem) =
        ((retryAux op bd (a + k) rem).1,
         (retryAux op bd (a + k) rem).2.1 + k,
         (List.range' a k).map (fun i => bd * 2 ^ i) ++ (retryAux op bd (a + k) rem).2.2) := by
  intro k
  induction k with
  | zero => intro rem a _; simp
  | succ n ih =>
    intro rem a hrl
    have h0 : op a = .failure (some 429) := by simpa using hrl 0 (Nat.succ_pos n)
    have hstep : n + 1 + rem = (n + rem) + 1 := by omega
    rw [hstep]
    have ihs := ih rem (a + 1) (fun j hj => by
      have := hrl (j + 1) (Nat.succ_lt_succ hj)
      simpa [Nat.add_assoc, Nat.add_comm 1 j] using this)
    simp only [retryAux, h0, eq_self_iff_true, if_true]
    rw [ihs]
    have harr : a + 1 + n = a + (n + 1) := by omega
    rw [harr]
    refine Prod.ext rfl (Prod.ext ?_ ?_)
    · simp only [Prod.snd, Prod.fst]; omega
    · simp only [List.range'_succ, List.map_cons, List.cons_append]

/-! ## Lemmas about the JS Map model -/

theorem mapGet_mapSet (m : JsMap) (k k' : Option String) (v : CalEvent) :
    mapGet (mapSet m k v) k' = if k' = k then some v else mapGet m k' := by
  induction m with
  | nil =>
    by_cases h : k' = k
    · subst h; simp [mapSet, mapGet]
    · have h2 : ¬ k = k' := fun hc => h hc.symm
      simp [mapSet, mapGet, h, h2]
  | cons p rest ih =>
    obtain ⟨kp, vp⟩ := p
    by_cases h1 : kp = k
    · subst h1
      by_cases h2 : k' = kp
      · subst h2; simp [mapSet, mapGet]
      · have h2' : ¬ kp = k' := fun hc => h2 hc.symm
        simp [mapSet, mapGet, h2, h2']
    · by_cases h2 : kp = k'
      · subst h2
        have h3 : ¬ kp = k := h1
        simp [mapSet, mapGet, h1, h3]
      · simp [mapSet, mapGet, h1, h2, ih]

theorem mem_mapSet (m : JsMap) (k : Option String) (v : CalEvent)
    (p : Option String × CalEvent) (h : p ∈ mapSet m k v) : p = (k, v) ∨ p ∈ m := by
  induction m with
  | nil => simpa [mapSet] using h
  | cons q rest ih =>
    obtain ⟨kq, vq⟩ := q
    by_cases h1 : kq = k
    · simp only [mapSet, if_pos h1] at h
      rcases List.mem_cons.mp h with h2 | h2
      · exact Or.inl h2
      · exact Or.inr (List.mem_cons.mpr (Or.inr h2))
    · simp only [mapSet, if_neg h1] at h
      rcases List.mem_cons.mp h with h2 | h2
      · exact Or.inr (List.mem_cons.mpr (Or.inl h2))
      · rcases ih h2 with h3 | h3
        · exact Or.inl h3
        · exact Or.inr (List.mem_cons.mpr (Or.inr h3))

theorem keys_mapSet_sub (m : JsMap) (k : Option String) (v : CalEvent)
    (k'' : Option String) (h : k'' ∈ (mapSet m k v).map Prod.fst) :
    k'' ∈ m.map Prod.fst ∨ k'' = k := by
  rcases List.mem_map.mp h with ⟨p, hp, hk⟩
  rcases mem_mapSet m k v p hp with h1 | h1
  · subst h1; exact Or.inr hk.symm
  · exact Or.inl (List.mem_map.mpr ⟨p, h1, hk⟩)

theorem keysNodup_mapSet (m : JsMap) (k : Option String) (v : CalEvent)
    (h : (m.map Prod.fst).Nodup) : ((mapSet m k v).map Prod.fst).Nodup := by
  induction m with
  | nil => simp [mapSet]
  | cons p rest ih =>
    obtain ⟨kp, vp⟩ := p
    simp only [List.map_cons, List.nodup_cons] at h
    by_cases h1 : kp = k
    · subst h1
      simpa [mapSet, List.nodup_cons] using h
    · simp only [mapSet, if_neg h1, List.map_cons, List.nodup_cons]
      refine ⟨?_, ih h.2⟩
      intro hc
      rcases keys_mapSet_sub rest k v kp hc with h2 | h2
      · exact h.1 h2
      · exact h1 h2

theorem mapGet_mapDelete_ne (m : JsMap) (k k' : Option String) (h : k' ≠ k) :
    mapGet (mapDelete m k) k' = mapGet m k' := by
  induction m with
  | nil => simp [mapDelete]
  | cons p rest ih =>
    obtain ⟨kp, vp⟩ := p
    by_cases h1 : kp = k
    · subst h1
      have : ¬ kp = k' := fun hc => h hc.symm
      simp [mapDelete, mapGet, this]
    · by_cases h2 : kp = k'
      · simp [mapDelete, mapGet, h1, h2, h]
      · simp [mapDelete, mapGet, h1, h2, h, ih]

theorem mapGet_mapDelete_self (m : JsMap) (k : Option String)
    (h : (m.map Prod.fst).Nodup) : mapGet (mapDelete m k) k = none := by
  induction m with
  | nil => simp [mapDelete, mapGet]
  | cons p rest ih =>
    obtain ⟨kp, vp⟩ := p
    simp only [List.map_cons, List.nodup_cons] at h
    by_cases h1 : kp = k
    · subst h1
      cases hr : mapGet rest kp with
      | none => simp [mapDelete, hr]
      | some v =>
        exfalso
        apply h.1
        clear ih h
        induction rest with
        | nil => simp [mapGet] at hr
        | cons q qs ihq =>
          obtain ⟨kq, vq⟩ := q
          by_cases h2 : kq = kp
          · subst h2; simp
          · simp only [mapGet, if_neg h2] at hr
            simp only [List.map_cons, List.mem_cons]
            exact Or.inr (ihq hr)
    · simp [mapDelete, mapGet, h1, ih h.2]

theorem mem_mapDelete (m : JsMap) (k : Option String)
    (p : Option String × CalEvent) (h : p ∈ mapDelete m k) : p ∈ m := by
  induction m with
  | nil => simp [mapDelete] at h
  | cons q rest ih =>
    obtain ⟨kq, vq⟩ := q
    by_cases h1 : kq = k
    · simp only [mapDelete, if_pos h1] at h
      exact List.mem_cons.mpr (Or.inr h)
    · simp only [mapDelete, if_neg h1] at h
      rcases List.mem_cons.mp h with h2 | h2
      · exact List.mem_cons.mpr (Or.inl h2)
      · exact List.mem_cons.mpr (Or.inr (ih h2))

theorem mem_mapDelete_of_ne (m : JsMap) (k : Option String)
    (p : Option String × CalEvent) (hp : p ∈ m) (hne : p.1 ≠ k) :
    p ∈ mapDelete m k := by
  induction m with
  | nil => simp at hp
  | cons q rest ih =>
    obtain ⟨kq, vq⟩ := q
    rcases List.mem_cons.mp hp with h1 | h1
    · have : ¬ kq = k := by
        intro hc; apply hne; rw [h1]; exact hc
      simp only [mapDelete, if_neg this]
      exact List.mem_cons.mpr (Or.inl h1)
    · by_cases h2 : kq = k
      · simpa [mapDelete, h2] using h1
      · simp only [mapDelete, if_neg h2]
        exact List.mem_cons.mpr (Or.inr (ih h1))

theorem keysNodup_mapDelete (m : JsMap) (k : Option String)
    (h : (m.map Prod.fst).Nodup) : ((mapDelete m k).map Prod.fst).Nodup := by
  induction m with
  | nil => simp [mapDelete]
  | cons q rest ih =>
    obtain ⟨kq, vq⟩ := q
    simp only [List.map_cons, List.nodup_cons] at h
    by_cases h1 : kq = k
    · simpa [mapDelete, h1] using h.2
    · simp only [mapDelete, if_neg h1, List.map_cons, List.nodup_cons]
      refine ⟨?_, ih h.2⟩
      intro hc
      rcases List.mem_map.mp hc with ⟨p, hp, hk⟩
      exact h.1 (List.mem_map.mpr ⟨p, mem_mapDelete rest k p hp, hk⟩)

theorem mem_of_mapGet (m : JsMap) (k : Option String) (v : CalEvent)
    (h : mapGet m k = some v) : (k, v) ∈ m := by
  induction m with
  | nil => simp [mapGet] at h
  | cons q rest ih =>
    obtain ⟨kq, vq⟩ := q
    by_cases h1 : kq = k
    · subst h1
      have h2 : vq = v := by simpa [mapGet] using h
      subst h2
      exact List.mem_cons_self _ _
    · simp only [mapGet, if_neg h1] at h
      exact List.mem_cons.mpr (Or.inr (ih h))

theorem mapGet_of_mem (m : JsMap) (k : Option String) (v : CalEvent)
    (hnd : (m.map Prod.fst).Nodup) (h : (k, v) ∈ m) : mapGet m k = some v := by
  induction m with
  | nil => simp at h
  | cons q rest ih =>
    obtain ⟨kq, vq⟩ := q
    simp only [List.map_cons, List.nodup_cons] at hnd
    rcases List.mem_cons.mp h with h1 | h1
    · obtain ⟨hk, hv⟩ := Prod.mk.injEq .. ▸ h1
      simp [mapGet, hk.symm, hv]
    · have hne : ¬ kq = k := by
        intro hc; subst hc
        exact hnd.1 (List.mem_map.mpr ⟨(kq, v), h1, rfl⟩)
      simp [mapGet, hne, ih hnd.2 h1]

/-! ## Lemmas about `buildIndex` -/

theorem keysNodup_buildIndex (events : List CalEvent) :
    ((buildIndex events).map Prod.fst).Nodup := by
  suffices h : ∀ (evs : List CalEvent) (m : JsMap), (m.map Prod.fst).Nodup →
      (((evs.foldl (fun m ev => mapSet m ev.uuid ev) m)).map Prod.fst).Nodup by
    exact h events [] (by simp)
  intro evs
  induction evs with
  | nil => intro m hm; simpa using hm
  | cons ev rest ih =>
    intro m hm
    simpa using ih (mapSet m ev.uuid ev) (keysNodup_mapSet m ev.uuid ev hm)

theorem mem_buildIndex (events : List CalEvent) (p : Option String × CalEvent)
    (h : p ∈ buildIndex events) : ∃ ev ∈ events, p = (ev.uuid, ev) := by
  suffices hs : ∀ (evs : List CalEvent) (m : JsMap),
      p ∈ evs.foldl (fun m ev => mapSet m ev.uuid ev) m →
      p ∈ m ∨ ∃ ev ∈ evs, p = (ev.uuid, ev) by
    rcases hs events [] h with h1 | h1
    · simp at h1
    · exact h1
  intro evs
  induction evs with
  | nil => intro m hm; exact Or.inl hm
  | cons ev rest ih =>
    intro m hm
    rcases ih (mapSet m ev.uuid ev) hm with h1 | h1
    · rcases mem_mapSet m ev.uuid ev p h1 with h2 | h2
      · exact Or.inr ⟨ev, List.mem_cons_self _ _, h2⟩
      · exact Or.inl h2
    · rcases h1 with ⟨ev', hmem, hp⟩
      exact Or.inr ⟨ev', List.mem_cons.mpr (Or.inr hmem), hp⟩

theorem mapGet_buildIndex (events : List CalEvent) (k : Option String) :
    mapGet (buildIndex events) k =
      (events.filter (fun x => x.uuid == k)).getLast? := by
  induction events using List.reverseRecOn with
  | nil => simp [buildIndex, mapGet]
  | append_singleton evs ev ih =>
    have hfold : buildIndex (evs ++ [ev]) = mapSet (buildIndex evs) ev.uuid ev := by
      simp [buildIndex, List.foldl_append]
    rw [hfold, mapGet_mapSet, List.filter_append]
    by_cases h : ev.uuid = k
    · simp [h, List.getLast?_concat]
    · have hne : ¬ k = ev.uuid := fun hc => h hc.symm
      have : ¬ (ev.uuid == k) = true := by simpa using h
      simp [hne, this, ih]

/-! ## Lemmas about the reconciliation loop -/

theorem applyTasks_acc (resolve : String → String → Int) (tz : String) :
    ∀ (ts : List Task) (m : JsMap) (acc : List Op),
      applyTasks resolve tz ts m acc =
        match applyTasks resolve tz ts m [] with
        | .error e => .error e
        | .ok (ops, m') => .ok (acc ++ ops, m') := by
  intro ts
  induction ts with
  | nil => intro m acc; simp [applyTasks]
  | cons t ts ih =>
    intro m acc
    simp only [applyTasks]
    cases getEventData tz t with
    | error e => rfl
    | ok ed =>
      dsimp only
      cases mapGet m (some t.UUID) with
      | some ex =>
        dsimp only
        rw [ih (mapDelete m (some t.UUID))
            (if eventsAreEqual resolve ex ed then acc else acc ++ [Op.update ex.id ed]),
          ih (mapDelete m (some t.UUID))
            (if eventsAreEqual resolve ex ed then [] else [] ++ [Op.update ex.id ed])]
        cases applyTasks resolve tz ts (mapDelete m (some t.UUID)) [] with
        | error e => rfl
        | ok p =>
          obtain ⟨ops, m'⟩ := p
          by_cases heq : eventsAreEqual resolve ex ed
          · simp [heq]
          · simp [heq]
      | none =>
        dsimp only
        rw [ih m (acc ++ [Op.create ed]), ih m ([] ++ [Op.create ed])]
        cases applyTasks resolve tz ts m [] with
        | error e => rfl
        | ok p =>
          obtain ⟨ops, m'⟩ := p
          simp

theorem applyTasks_spec (resolve : String → String → Int) (tz : String) :
    ∀ (ts : List Task) (m : JsMap),
      (match applyTasks resolve tz ts m [] with
        | .error e => .error e
        | .ok (ops, m') => .ok (ops ++ m'.map fun p => Op.delete p.2.id)) =
      reconcilerSpec resolve tz ts m := by
  intro ts
  induction ts with
  | nil => intro m; simp [applyTasks, reconcilerSpec]
  | cons t ts ih =>
    intro m
    simp only [applyTasks, reconcilerSpec]
    cases getEventData tz t with
    | error e => rfl
    | ok ed =>
      dsimp only
      cases mapGet m (some t.UUID) with
      | some ex =>
        dsimp only
        rw [applyTasks_acc, ← ih (mapDelete m (some t.UUID))]
        cases applyTasks resolve tz ts (mapDelete m (some t.UUID)) [] with
        | error e => rfl
        | ok p =>
          obtain ⟨ops, m'⟩ := p
          by_cases heq : eventsAreEqual resolve ex ed
          · simp [heq]
          · simp [heq]
      | none =>
        dsimp only
        rw [applyTasks_acc, ← ih m]
        cases applyTasks resolve tz ts m [] with
        | error e => rfl
        | ok p =>
          obtain ⟨ops, m'⟩ := p
          simp

theorem keyNe_mem_mapDelete (m : JsMap) (k : Option String)
    (hnd : (m.map Prod.fst).Nodup) (p : Option String × CalEvent)
    (hp : p ∈ mapDelete m k) : p.1 ≠ k := by
  induction m with
  | nil => simp [mapDelete] at hp
  | cons q rest ih =>
    obtain ⟨kq, vq⟩ := q
    simp only [List.map_cons, List.nodup_cons] at hnd
    by_cases h1 : kq = k
    · subst h1
      simp only [mapDelete, if_pos rfl] at hp
      intro hc
      exact hnd.1 (List.mem_map.mpr ⟨p, hp, hc⟩)
    · simp only [mapDelete, if_neg h1] at hp
      rcases List.mem_cons.mp hp with h2 | h2
      · subst h2; exact h1
      · exact ih hnd.2 h2

theorem mem_foldl_mapDelete :
    ∀ (ts : List Task) (m : JsMap), (m.map Prod.fst).Nodup →
      ∀ p ∈ ts.foldl (fun acc t => mapDelete acc (some t.UUID)) m,
        p ∈ m ∧ ∀ t ∈ ts, p.1 ≠ some t.UUID := by
  intro ts
  induction ts with
  | nil => intro m _ p hp; exact ⟨hp, by simp⟩
  | cons t ts ih =>
    intro m hnd p hp
    have hstep := ih (mapDelete m (some t.UUID)) (keysNodup_mapDelete m _ hnd) p
      (by simpa using hp)
    refine ⟨mem_mapDelete m _ p hstep.1, ?_⟩
    intro t' ht'
    rcases List.mem_cons.mp ht' with h1 | h1
    · subst h1
      exact keyNe_mem_mapDelete m _ hnd p hstep.1
    · exact hstep.2 t' h1

theorem applyTasks_all_equal (resolve : String → String → Int) (tz : String) :
    ∀ (ts : List Task) (m : JsMap),
      (∀ t ∈ ts, ∃ ed ex, getEventData tz t = .ok ed ∧
        mapGet m (some t.UUID) = some ex ∧ eventsAreEqual resolve ex ed = true) →
      (ts.map Task.UUID).Nodup →
      applyTasks resolve tz ts m [] =
        .ok ([], ts.foldl (fun acc t => mapDelete acc (some t.UUID)) m) := by
  intro ts
  induction ts with
  | nil => intro m _ _; simp [applyTasks]
  | cons t ts ih =>
    intro m hmatch hnd
    obtain ⟨ed, ex, hge, hmg, heq⟩ := hmatch t (List.mem_cons_self _ _)
    simp only [List.map_cons, List.nodup_cons] at hnd
    simp only [applyTasks, hge, hmg, heq, eq_self_iff_true, if_true]
    have hrec := ih (mapDelete m (some t.UUID)) ?_ hnd.2
    · simpa using hrec
    · intro t' ht'
      obtain ⟨ed', ex', hge', hmg', heq'⟩ := hmatch t' (List.mem_cons.mpr (Or.inr ht'))
      refine ⟨ed', ex', hge', ?_, heq'⟩
      rw [mapGet_mapDelete_ne]
      · exact hmg'
      · intro hc
        apply hnd.1
        have : t'.UUID = t.UUID := by simpa using hc
        rw [← this]
        exact List.mem_map.mpr ⟨t', ht', rfl⟩

theorem applyTasks_targets (resolve : String → String → Int) (tz : String) :
    ∀ (ts : List Task) (m : JsMap) (ops : List Op) (m' : JsMap),
      (m.map Prod.fst).Nodup →
      applyTasks resolve tz ts m [] = .ok (ops, m') →
      (∀ op ∈ ops, op.targetId = none ∨
        ∃ u v, mapGet m (some u) = some v ∧ op.targetId = some v.id) ∧
      ∀ p ∈ m', p ∈ m := by
  intro ts
  induction ts with
  | nil =>
    intro m ops m' _ happ
    simp only [applyTasks, Except.ok.injEq, Prod.mk.injEq] at happ
    obtain ⟨h1, h2⟩ := happ
    subst h1; subst h2
    exact ⟨by simp, fun p hp => hp⟩
  | cons t ts ih =>
    intro m ops m' hnd happ
    simp only [applyTasks] at happ
    cases hge : getEventData tz t with
    | error e => rw [hge] at happ; simp at happ
    | ok ed =>
      rw [hge] at happ
      dsimp only at happ
      cases hmg : mapGet m (some t.UUID) with
      | some ex =>
        rw [hmg] at happ
        dsimp only at happ
        rw [applyTasks_acc] at happ
        cases happ1 : applyTasks resolve tz ts (mapDelete m (some t.UUID)) [] with
        | error e => rw [happ1] at happ; simp at happ
        | ok p =>
          obtain ⟨ops1, m1⟩ := p
          rw [happ1] at happ
          simp only [Except.ok.injEq, Prod.mk.injEq] at happ
          obtain ⟨hops, hm⟩ := happ
          subst hm
          have hrec := ih (mapDelete m (some t.UUID)) ops1 m1
            (keysNodup_mapDelete m _ hnd) happ1
          have htrans : ∀ u v, mapGet (mapDelete m (some t.UUID)) (some u) = some v →
              mapGet m (some u) = some v := by
            intro u v hv
            by_cases hk : (some u : Option String) = some t.UUID
            · rw [hk] at hv
              rw [mapGet_mapDelete_self m _ hnd] at hv
              exact absurd hv (by simp)
            · rw [mapGet_mapDelete_ne m _ _ hk] at hv
              exact hv
          refine ⟨?_, fun p hp => mem_mapDelete m _ p (hrec.2 p hp)⟩
          intro op hop
          rw [← hops] at hop
          rcases List.mem_append.mp hop with h1 | h1
          · by_cases heq : eventsAreEqual resolve ex ed
            · simp [heq] at h1
            · simp only [heq, if_false, Bool.false_eq_true] at h1
              have : op = Op.update ex.id ed := by simpa using h1
              subst this
              exact Or.inr ⟨t.UUID, ex, hmg, rfl⟩
          · rcases hrec.1 op h1 with h2 | ⟨u, v, hv, hid⟩
            · exact Or.inl h2
            · exact Or.inr ⟨u, v, htrans u v hv, hid⟩
      | none =>
        rw [hmg] at happ
        dsimp only at happ
        rw [applyTasks_acc] at happ
        cases happ1 : applyTasks resolve tz ts m [] with
        | error e => rw [happ1] at happ; simp at happ
        | ok p =>
          obtain ⟨ops1, m1⟩ := p
          rw [happ1] at happ
          simp only [Except.ok.injEq, Prod.mk.injEq] at happ
          obtain ⟨hops, hm⟩ := happ
          subst hm
          have hrec := ih m ops1 m1 hnd happ1
          refine ⟨?_, hrec.2⟩
          intro op hop
          rw [← hops] at hop
          rcases List.mem_append.mp hop with h1 | h1
          · have : op = Op.create ed := by simpa using h1
            subst this
            exact Or.inl rfl
          · exact hrec.1 op h1

theorem applyTasks_none_survives (resolve : String → String → Int) (tz : String) :
    ∀ (ts : List Task) (m : JsMap) (acc ops : List Op) (m' : JsMap) (v : CalEvent),
      applyTasks resolve tz ts m acc = .ok (ops, m') →
      (none, v) ∈ m → (none, v) ∈ m' := by
  intro ts
  induction ts with
  | nil =>
    intro m acc ops m' v happ hv
    simp only [applyTasks, Except.ok.injEq, Prod.mk.injEq] at happ
    rw [← happ.2]
    exact hv
  | cons t ts ih =>
    intro m acc ops m' v happ hv
    simp only [applyTasks] at happ
    cases hge : getEventData tz t with
    | error e => rw [hge] at happ; simp at happ
    | ok ed =>
      rw [hge] at happ
      dsimp only at happ
      cases hmg : mapGet m (some t.UUID) with
      | some ex =>
        rw [hmg] at happ
        dsimp only at happ
        exact ih (mapDelete m (some t.UUID)) _ ops m' v happ
          (mem_mapDelete_of_ne m _ (none, v) hv (by simp))
      | none =>
        rw [hmg] at happ
        dsimp only at happ
        exact ih m _ ops m' v happ hv

theorem applyTasks_update_unequal (resolve : String → String → Int) (tz : String) :
    ∀ (ts : List Task) (m : JsMap) (ops : List Op) (m' : JsMap),
      applyTasks resolve tz ts m [] = .ok (ops, m') →
      ∀ i ed, Op.update i ed ∈ ops →
        ∃ ex, ex.id = i ∧ eventsAreEqual resolve ex ed = false := by
  intro ts
  induction ts with
  | nil =>
    intro m ops m' happ i ed hop
    simp only [applyTasks, Except.ok.injEq, Prod.mk.injEq] at happ
    rw [← happ.1] at hop
    simp at hop
  | cons t ts ih =>
    intro m ops m' happ i ed hop
    simp only [applyTasks] at happ
    cases hge : getEventData tz t with
    | error e => rw [hge] at happ; simp at happ
    | ok ed0 =>
      rw [hge] at happ
      dsimp only at happ
      cases hmg : mapGet m (some t.UUID) with
      | some ex =>
        rw [hmg] at happ
        dsimp only at happ
        rw [applyTasks_acc] at happ
        cases happ1 : applyTasks resolve tz ts (mapDelete m (some t.UUID)) [] with
        | error e => rw [happ1] at happ; simp at happ
        | ok p =>
          obtain ⟨ops1, m1⟩ := p
          rw [happ1] at happ
          simp only [Except.ok.injEq, Prod.mk.injEq] at happ
          rw [← happ.1] at hop
          rcases List.mem_append.mp hop with h1 | h1
          · by_cases heq : eventsAreEqual resolve ex ed0
            · simp [heq] at h1
            · simp only [heq, if_false, Bool.false_eq_true] at h1
              have h2 : Op.update i ed = Op.update ex.id ed0 := by simpa using h1
              injection h2 with hia hib
              refine ⟨ex, hia.symm, ?_⟩
              rw [hib]
              simpa using heq
          · exact ih (mapDelete m (some t.UUID)) ops1 m1 happ1 i ed h1
      | none =>
        rw [hmg] at happ
        dsimp only at happ
        rw [applyTasks_acc] at happ
        cases happ1 : applyTasks resolve tz ts m [] with
        | error e => rw [happ1] at happ; simp at happ
        | ok p =>
          obtain ⟨ops1, m1⟩ := p
          rw [happ1] at happ
          simp only [Except.ok.injEq, Prod.mk.injEq] at happ
          rw [← happ.1] at hop
          rcases List.mem_append.mp hop with h1 | h1
          · simp at h1
          · exact ih m ops1 m1 happ1 i ed h1

theorem applyTasks_ok_all_parse (resolve : String → String → Int) (tz : String) :
    ∀ (ts : List Task) (m : JsMap) (acc : List Op) (res : List Op × JsMap),
      applyTasks resolve tz ts m acc = .ok res →
      ∀ t ∈ ts, ∃ ed, getEventData tz t = .ok ed := by
  intro ts
  induction ts with
  | nil => intro m acc res _ t ht; simp at ht
  | cons t0 ts ih =>
    intro m acc res happ t ht
    simp only [applyTasks] at happ
    cases hge : getEventData tz t0 with
    | error e => rw [hge] at happ; simp at happ
    | ok ed =>
      rw [hge] at happ
      dsimp only at happ
      rcases List.mem_cons.mp ht with h1 | h1
      · subst h1; exact ⟨ed, hge⟩
      · cases hmg : mapGet m (some t0.UUID) with
        | some ex =>
          rw [hmg] at happ
          dsimp only at happ
          exact ih _ _ res happ t h1
        | none =>
          rw [hmg] at happ
          dsimp only at happ
          exact ih _ _ res happ t h1

theorem eq_of_id_eq :
    ∀ (l : List CalEvent), (l.map CalEvent.id).Nodup →
      ∀ a b : CalEvent, a ∈ l → b ∈ l → a.id = b.id → a = b := by
  intro l
  induction l with
  | nil => intro _ a b ha; simp at ha
  | cons x xs ih =>
    intro hnd a b ha hb hid
    simp only [List.map_cons, List.nodup_cons] at hnd
    rcases List.mem_cons.mp ha with h1 | h1 <;> rcases List.mem_cons.mp hb with h2 | h2
    · rw [h1, h2]
    · exfalso
      apply hnd.1
      rw [h1] at hid
      exact List.mem_map.mpr ⟨b, h2, hid.symm⟩
    · exfalso
      apply hnd.1
      rw [h2] at hid
      exact List.mem_map.mpr ⟨a, h1, hid⟩
    · exact ih hnd.2 a b h1 h2 hid

theorem mem_of_getLastQ :
    ∀ (l : List CalEvent) (a : CalEvent), l.getLast? = some a → a ∈ l := by
  intro l
  induction l with
  | nil => intro a h; simp at h
  | cons x xs ih =>
    intro a h
    cases xs with
    | nil =>
      have hxa : x = a := by simpa [List.getLast?] using h
      rw [hxa]
      exact List.mem_singleton_self a
    | cons y ys =>
      rw [List.getLast?_cons_cons] at h
      exact List.mem_cons.mpr (Or.inr (ih a h))

theorem dropped_not_in_index (l1 l2 : List CalEvent) (e e2 : CalEvent)
    (he2 : e2 ∈ l2) (hu : e2.uuid = e.uuid)
    (hids : ((l1 ++ e :: l2).map CalEvent.id).Nodup) :
    mapGet (buildIndex (l1 ++ e :: l2)) e.uuid ≠ some e := by
  intro hcontra
  rw [mapGet_buildIndex] at hcontra
  have hfe : (fun x => x.uuid == e.uuid) e = true := by simp
  have hf2 : (fun x => x.uuid == e.uuid) e2 = true := by simp [hu]
  have hne2 : l2.filter (fun x => x.uuid == e.uuid) ≠ [] :=
    List.ne_nil_of_mem (List.mem_filter.mpr ⟨he2, hf2⟩)
  rw [List.filter_append, List.filter_cons, if_pos hfe] at hcontra
  rw [List.getLast?_append_cons] at hcontra
  have hcons : e :: l2.filter (fun x => x.uuid == e.uuid) =
      [e] ++ l2.filter (fun x => x.uuid == e.uuid) := rfl
  rw [hcons, List.getLast?_append_of_ne_nil [e] hne2] at hcontra
  have hmem : e ∈ l2.filter (fun x => x.uuid == e.uuid) := mem_of_getLastQ _ e hcontra
  have hmem2 : e ∈ l2 := (List.mem_filter.mp hmem).1
  have hnd2 : ((e :: l2).map CalEvent.id).Nodup := by
    rw [List.map_append] at hids
    exact hids.of_append_right
  simp only [List.map_cons, List.nodup_cons] at hnd2
  exact hnd2.1 (List.mem_map.mpr ⟨e, hmem2, rfl⟩)

theorem dropped_untouched (resolve : String → String → Int) (tz : String)
    (tasks : List Task) (l1 l2 : List CalEvent) (e e2 : CalEvent)
    (he2 : e2 ∈ l2) (hu : e2.uuid = e.uuid)
    (hids : ((l1 ++ e :: l2).map CalEvent.id).Nodup) :
    ∀ ops, runReconcile resolve tz tasks (l1 ++ e :: l2) = .ok ops →
      ∀ op ∈ ops, op.targetId ≠ some e.id := by
  intro ops hrun op hop hcontra
  have hemem : e ∈ l1 ++ e :: l2 := List.mem_append.mpr (Or.inr (List.mem_cons_self _ _))
  unfold runReconcile at hrun
  cases happ : applyTasks resolve tz tasks (buildIndex (l1 ++ e :: l2)) [] with
  | error er => rw [happ] at hrun; simp at hrun
  | ok p =>
    obtain ⟨ops1, m'⟩ := p
    rw [happ] at hrun
    simp only [Except.ok.injEq] at hrun
    rw [← hrun] at hop
    have htg := applyTasks_targets resolve tz tasks (buildIndex (l1 ++ e :: l2))
      ops1 m' (keysNodup_buildIndex _) happ
    have hkey : (e.uuid, e) ∉ buildIndex (l1 ++ e :: l2) := by
      intro hmem
      exact dropped_not_in_index l1 l2 e e2 he2 hu hids
        (mapGet_of_mem _ _ _ (keysNodup_buildIndex _) hmem)
    rcases List.mem_append.mp hop with h1 | h1
    · rcases htg.1 op h1 with h2 | ⟨u, v, hv, hid⟩
      · rw [h2] at hcontra; exact absurd hcontra (by simp)
      · rw [hid] at hcontra
        have hvid : v.id = e.id := by simpa using hcontra
        have hventry := mem_of_mapGet _ _ _ hv
        obtain ⟨ev, hevmem, hevp⟩ := mem_buildIndex _ _ hventry
        have hk : (some u : Option String) = ev.uuid := by
          simpa using congrArg Prod.fst hevp
        have hvv : v = ev := by simpa using congrArg Prod.snd hevp
        have hve : v = e := eq_of_id_eq _ hids v e (hvv ▸ hevmem) hemem hvid
        apply hkey
        have hpair : ((some u : Option String), v) = (e.uuid, e) := by
          rw [hk, ← hvv, hve]
        exact hpair ▸ hventry
    · rcases List.mem_map.mp h1 with ⟨p, hpmem, hpe⟩
      have hpin := htg.2 p hpmem
      obtain ⟨ev, hevmem, hevp⟩ := mem_buildIndex _ _ hpin
      have hpid : p.2.id = e.id := by
        rw [← hpe] at hcontra
        simpa [Op.targetId] using hcontra
      have hpev : p.2 = ev := by rw [hevp]
      have heve : ev = e := eq_of_id_eq _ hids ev e hevmem hemem
        (by rw [← hpev]; exact hpid)
      apply hkey
      have hpair : p = (e.uuid, e) := by rw [hevp, heve]
      rw [← hpair]
      exact hpin

theorem none_key_never_updated (resolve : String → String → Int) (tz : String)
    (tasks : List Task) (events : List CalEvent) (e : CalEvent)
    (he : e ∈ events) (huuid : e.uuid = none)
    (hids : (events.map CalEvent.id).Nodup) :
    ∀ ops, runReconcile resolve tz tasks events = .ok ops →
      ∀ eid ed, Op.update eid ed ∈ ops → eid ≠ e.id := by
  intro ops hrun eid ed hop hcontra
  unfold runReconcile at hrun
  cases happ : applyTasks resolve tz tasks (buildIndex events) [] with
  | error er => rw [happ] at hrun; simp at hrun
  | ok p =>
    obtain ⟨ops1, m'⟩ := p
    rw [happ] at hrun
    simp only [Except.ok.injEq] at hrun
    rw [← hrun] at hop
    rcases List.mem_append.mp hop with h1 | h1
    · have htg := applyTasks_targets resolve tz tasks (buildIndex events) ops1 m'
        (keysNodup_buildIndex _) happ
      rcases htg.1 _ h1 with h2 | ⟨u, v, hv, hid⟩
      · simp [Op.targetId] at h2
      · have heid : eid = v.id := by simpa [Op.targetId] using hid
        have hventry := mem_of_mapGet _ _ _ hv
        obtain ⟨ev, hevmem, hevp⟩ := mem_buildIndex _ _ hventry
        have hvv : v = ev := by simpa using congrArg Prod.snd hevp
        have hk : (some u : Option String) = ev.uuid := by
          simpa using congrArg Prod.fst hevp
        have hveqe : v = e := eq_of_id_eq _ hids v e (hvv ▸ hevmem) he
          (by rw [← heid]; exact hcontra)
        have hsome : e.uuid = some u := by rw [← hveqe, hvv, ← hk]
        rw [huuid] at hsome
        simp at hsome
    · rcases List.mem_map.mp h1 with ⟨p, _, hpe⟩
      simp at hpe

theorem none_key_deleted (resolve : String → String → Int) (tz : String)
    (tasks : List Task) (events : List CalEvent) (e : CalEvent)
    (hget : mapGet (buildIndex events) none = some e) :
    ∀ ops, runReconcile resolve tz tasks events = .ok ops →
      Op.delete e.id ∈ ops := by
  intro ops hrun
  unfold runReconcile at hrun
  cases happ : applyTasks resolve tz tasks (buildIndex events) [] with
  | error er => rw [happ] at hrun; simp at hrun
  | ok p =>
    obtain ⟨ops1, m'⟩ := p
    rw [happ] at hrun
    simp only [Except.ok.injEq] at hrun
    have hmem : (none, e) ∈ m' := applyTasks_none_survives resolve tz tasks
      (buildIndex events) [] ops1 m' e happ (mem_of_mapGet _ _ _ hget)
    rw [← hrun]
    exact List.mem_append.mpr (Or.inr (List.mem_map.mpr ⟨(none, e), hmem, rfl⟩))

theorem runReconcile_ok_all_parse (resolve : String → String → Int) (tz : String)
    (tasks : List Task) (events : List CalEvent) (ops : List Op)
    (h : runReconcile resolve tz tasks events = .ok ops) :
    ∀ t ∈ tasks, ∃ ed, getEventData tz t = .ok ed := by
  unfold runReconcile at h
  cases happ : applyTasks resolve tz tasks (buildIndex events) [] with
  | error er => rw [happ] at h; simp at h
  | ok p => exact applyTasks_ok_all_parse resolve tz tasks _ [] p happ

/-! ## Lemmas about the identity-backfill phases -/

theorem pendingOf_length (gen : Nat → String) :
    ∀ (rows : List (List String)) (i g : Nat),
      (pendingOf gen rows i g).length = needyCount rows := by
  intro rows
  induction rows with
  | nil => intro i g; simp [pendingOf, needyCount]
  | cons row rest ih =>
    intro i g
    simp only [pendingOf, needyCount]
    by_cases h8 : row.getD 8 "" = ""
    · rw [if_pos h8, if_pos h8]
      simp only [List.length_cons, ih]
      omega
    · rw [if_neg h8, if_neg h8]
      simp only [ih]
      omega

theorem phase1_ok (gen : Nat → String) (rereads : Nat → List (List String))
    (snapshot : List (List String)) :
    ∀ (rows : List (List String)) (i g ck : Nat)
      (out : List Task × List (Nat × String) × Nat),
      (phase1 gen rereads snapshot rows i g ck).1 = some out →
      out.1 = tasksOf gen rows g ∧ out.2.1 = pendingOf gen rows i g ∧
      out.2.2 = ck + (pendingOf gen rows i g).length ∧
      (phase1 gen rereads snapshot rows i g ck).2 =
        List.replicate (pendingOf gen rows i g).length SheetOp.check := by
  intro rows
  induction rows with
  | nil =>
    intro i g ck out h
    simp only [phase1, Option.some.injEq] at h
    rw [← h]
    simp [tasksOf, pendingOf, phase1]
  | cons row rest ih =>
    intro i g ck out h
    simp only [phase1] at h ⊢
    simp only [tasksOf, pendingOf]
    by_cases h8 : row.getD 8 "" = ""
    · rw [if_pos h8] at h ⊢
      rw [if_pos h8, if_pos h8]
      by_cases hck : normalizeValues (rereads ck) = snapshot
      · rw [if_pos hck] at h ⊢
        cases hr : (phase1 gen rereads snapshot rest (i + 1) (g + 1) (ck + 1)).1 with
        | none => rw [hr] at h; simp at h
        | some out' =>
          obtain ⟨ts', pend', ck2⟩ := out'
          rw [hr] at h
          dsimp only at h ⊢
          obtain ⟨h1, h2, h3, h4⟩ := ih (i + 1) (g + 1) (ck + 1) (ts', pend', ck2) hr
          dsimp only at h1 h2 h3
          simp only [Option.some.injEq] at h
          rw [← h]
          dsimp only
          refine ⟨by rw [h1], by rw [h2], ?_, ?_⟩
          · simp only [List.length_cons]
            omega
          · rw [h4, List.length_cons, List.replicate_succ]
      · rw [if_neg hck] at h
        simp at h
    · rw [if_neg h8] at h ⊢
      rw [if_neg h8, if_neg h8]
      cases hr : (phase1 gen rereads snapshot rest (i + 1) g ck).1 with
      | none => rw [hr] at h; simp at h
      | some out' =>
        obtain ⟨ts', pend', ck2⟩ := out'
        rw [hr] at h
        dsimp only at h ⊢
        obtain ⟨h1, h2, h3, h4⟩ := ih (i + 1) g ck (ts', pend', ck2) hr
        dsimp only at h1 h2 h3
        simp only [Option.some.injEq] at h
        rw [← h]
        dsimp only
        exact ⟨by rw [h1], by rw [h2], h3, h4⟩

theorem phase1_err (gen : Nat → String) (rereads : Nat → List (List String))
    (snapshot : List (List String)) :
    ∀ (rows : List (List String)) (i g ck : Nat),
      (phase1 gen rereads snapshot rows i g ck).1 = none →
      ∃ n, (phase1 gen rereads snapshot rows i g ck).2 =
        List.replicate (n + 1) SheetOp.check := by
  intro rows
  induction rows with
  | nil => intro i g ck h; simp [phase1] at h
  | cons row rest ih =>
    intro i g ck h
    simp only [phase1] at h ⊢
    by_cases h8 : row.getD 8 "" = ""
    · rw [if_pos h8] at h ⊢
      by_cases hck : normalizeValues (rereads ck) = snapshot
      · rw [if_pos hck] at h ⊢
        cases hr : (phase1 gen rereads snapshot rest (i + 1) (g + 1) (ck + 1)).1 with
        | some out' => rw [hr] at h; simp at h
        | none =>
          rw [hr] at h
          obtain ⟨n, hn⟩ := ih (i + 1) (g + 1) (ck + 1) hr
          refine ⟨n + 1, ?_⟩
          dsimp only
          rw [hn]
          simp [List.replicate_succ]
      · rw [if_neg hck]
        exact ⟨0, rfl⟩
    · rw [if_neg h8] at h ⊢
      cases hr : (phase1 gen rereads snapshot rest (i + 1) g ck).1 with
      | some out' => rw [hr] at h; simp at h
      | none =>
        rw [hr] at h
        obtain ⟨n, hn⟩ := ih (i + 1) g ck hr
        dsimp only
        exact ⟨n, hn⟩

theorem phase2_ok (rereads : Nat → List (List String)) :
    ∀ (pend : List (Nat × String)) (snap : List (List String)) (ck : Nat),
      (phase2 rereads pend snap ck).1 = true →
      (phase2 rereads pend snap ck).2 =
        pend.flatMap fun p => [SheetOp.check, SheetOp.write p.1 p.2] := by
  intro pend
  induction pend with
  | nil => intro snap ck _; simp [phase2]
  | cons pr rest ih =>
    obtain ⟨ri, u⟩ := pr
    intro snap ck h
    simp only [phase2] at h ⊢
    by_cases hck : normalizeValues (rereads ck) = snap
    · rw [if_pos hck] at h ⊢
      dsimp only at h ⊢
      rw [ih (setCell snap (ri - 2) 8 u) (ck + 1) h]
      simp
    · rw [if_neg hck] at h
      simp at h

theorem phase2_err (rereads : Nat → List (List String)) :
    ∀ (pend : List (Nat × String)) (snap : List (List String)) (ck : Nat),
      (phase2 rereads pend snap ck).1 = false →
      ∃ pre rest, pend = pre ++ rest ∧
        (phase2 rereads pend snap ck).2 =
          (pre.flatMap fun p => [SheetOp.check, SheetOp.write p.1 p.2]) ++
            [SheetOp.check] := by
  intro pend
  induction pend with
  | nil => intro snap ck h; simp [phase2] at h
  | cons pr rest ih =>
    obtain ⟨ri, u⟩ := pr
    intro snap ck h
    simp only [phase2] at h ⊢
    by_cases hck : normalizeValues (rereads ck) = snap
    · rw [if_pos hck] at h ⊢
      dsimp only at h ⊢
      obtain ⟨pre', rest', hsplit, htr⟩ := ih (setCell snap (ri - 2) 8 u) (ck + 1) h
      refine ⟨(ri, u) :: pre', rest', by rw [hsplit]; rfl, ?_⟩
      rw [htr]
      simp
    · rw [if_neg hck]
      exact ⟨[], (ri, u) :: rest, rfl, rfl⟩

theorem tasksOf_length (gen : Nat → String) :
    ∀ (rows : List (List String)) (g : Nat),
      (tasksOf gen rows g).length = rows.length := by
  intro rows
  induction rows with
  | nil => intro g; simp [tasksOf]
  | cons row rest ih =>
    intro g
    simp only [tasksOf]
    by_cases h8 : row.getD 8 "" = ""
    · rw [if_pos h8]
      simp [ih]
    · rw [if_neg h8]
      simp [ih]

theorem tasksOf_get (gen : Nat → String) :
    ∀ (rows : List (List String)) (g i : Nat) (row : List String),
      rows.get? i = some row →
      (tasksOf gen rows g).get? i =
        some (rowToTask
          (if row.getD 8 "" = "" then gen (g + needyCount (rows.take i))
            else row.getD 8 "") row) := by
  intro rows
  induction rows with
  | nil => intro g i row h; simp at h
  | cons r0 rest ih =>
    intro g i row h
    cases i with
    | zero =>
      have heq : r0 = row := by simpa using h
      subst heq
      simp only [tasksOf, List.take_zero, needyCount, Nat.add_zero]
      by_cases h8 : r0.getD 8 "" = ""
      · rw [if_pos h8, if_pos h8]
        rfl
      · rw [if_neg h8, if_neg h8]
        rfl
    | succ i =>
      have hrest : rest.get? i = some row := h
      simp only [tasksOf, List.take_succ_cons, needyCount]
      by_cases h8 : r0.getD 8 "" = ""
      · rw [if_pos h8, if_pos h8]
        rw [List.get?_cons_succ, ih (g + 1) i row hrest]
        by_cases hrow8 : row.getD 8 "" = ""
        · rw [if_pos hrow8, if_pos hrow8]
          have harith : g + 1 + needyCount (rest.take i) =
              g + (1 + needyCount (rest.take i)) := by omega
          rw [harith]
        · rw [if_neg hrow8, if_neg hrow8]
      · rw [if_neg h8, if_neg h8]
        rw [List.get?_cons_succ, ih g i row hrest]
        by_cases hrow8 : row.getD 8 "" = ""
        · rw [if_pos hrow8, if_pos hrow8]
          have harith : g + needyCount (rest.take i) =
              g + (0 + needyCount (rest.take i)) := by omega
          rw [harith]
        · rw [if_neg hrow8, if_neg hrow8]

theorem writesOf_replicate (n : Nat) :
    writesOf (List.replicate n SheetOp.check) = [] := by
  induction n with
  | zero => rfl
  | succ k ih =>
    rw [List.replicate_succ]
    have hstep : writesOf (SheetOp.check :: List.replicate k SheetOp.check) =
        writesOf (List.replicate k SheetOp.check) := rfl
    rw [hstep, ih]

theorem writesOf_append (a b : List SheetOp) :
    writesOf (a ++ b) = writesOf a ++ writesOf b := by
  simp [writesOf]

theorem writesOf_bind (pend : List (Nat × String)) :
    writesOf (pend.flatMap fun p => [SheetOp.check, SheetOp.write p.1 p.2]) = pend := by
  induction pend with
  | nil => rfl
  | cons pr rest ih =>
    obtain ⟨ri, u⟩ := pr
    rw [List.flatMap_cons, writesOf_append, ih]
    rfl

/-! ## Claims -/

/-- C1: in every reconciler run, each Task in source order is projected and
looked up by its Identity in the index of existing target events:
found-and-semantically-equal issues nothing and removes the index entry;
found-and-unequal issues exactly one update carrying the full projected
payload and removes the entry; not-found issues exactly one create; and
after all Tasks, exactly one delete is issued per entry still in the index.
Stated as: the source loop `runReconcile` coincides with `reconcilerSpec`,
the step-by-step transcription of exactly this description. -/
theorem C1_reconciler_diff_apply (resolve : String → String → Int) (tz : String)
    (tasks : List Task) (events : List CalEvent) :
    runReconcile resolve tz tasks events =
      reconcilerSpec resolve tz tasks (buildIndex events) :=
  applyTasks_spec resolve tz tasks (buildIndex events)

/-- C9: every successfully projected event is instantaneous — its start and
end blocks are identical, carrying the same date-time string and the same
configured timezone. -/
theorem C9_zero_duration (tz : String) (a : Task) (e : EventData)
    (h : getEventData tz a = .ok e) :
    e.start = e.«end» ∧ e.start.timeZone = tz ∧ e.«end».timeZone = tz := by
  unfold getEventData at h
  dsimp only at h
  cases hm : momentParse (a.DueDate ++ "|" ++ a.DueTime) with
  | none => rw [hm] at h; simp at h
  | some iso =>
    rw [hm] at h
    simp only [Except.ok.injEq] at h
    rw [← h]
    exact ⟨rfl, rfl, rfl⟩

theorem C9_witness :
    getEventData "UTC" taskEssay = .ok (essayEvent "UTC") ∧
    (essayEvent "UTC").start = (essayEvent "UTC").«end» :=
  ⟨rfl, (C9_zero_duration "UTC" taskEssay (essayEvent "UTC") rfl).1⟩

/-- C8: the comparator returns true exactly when the two events agree on the
four normalized fields — summary, description, resolved start instant and
resolved end instant; the embedded identity and the raw timezone labels are
not consulted, so two events that differ only in the raw timezone labels
while resolving to the same instants compare equal; and every update the
reconciler issues is justified by a comparator-unequal existing event. -/
theorem C8_equality_comparator (resolve : String → String → Int) :
    (∀ (e1 : CalEvent) (e2 : EventData),
      eventsAreEqual resolve e1 e2 = true ↔
        (e1.summary = e2.summary ∧ e1.description = e2.description ∧
         resolve e1.start.dateTime e1.start.timeZone =
           resolve e2.start.dateTime e2.start.timeZone ∧
         resolve e1.«end».dateTime e1.«end».timeZone =
           resolve e2.«end».dateTime e2.«end».timeZone)) ∧
    (∀ (e1 : CalEvent) (e2 : EventData),
      e1.summary = e2.summary → e1.description = e2.description →
      e1.start.dateTime = e2.start.dateTime →
      e1.«end».dateTime = e2.«end».dateTime →
      resolve e1.start.dateTime e1.start.timeZone =
        resolve e2.start.dateTime e2.start.timeZone →
      resolve e1.«end».dateTime e1.«end».timeZone =
        resolve e2.«end».dateTime e2.«end».timeZone →
      eventsAreEqual resolve e1 e2 = true) ∧
    (∀ (tz : String) (tasks : List Task) (events : List CalEvent)
      (ops : List Op) (eid : String) (ed : EventData),
      runReconcile resolve tz tasks events = .ok ops →
      Op.update eid ed ∈ ops →
      ∃ ex, ex.id = eid ∧ eventsAreEqual resolve ex ed = false) := by
  have h1 : ∀ (e1 : CalEvent) (e2 : EventData),
      eventsAreEqual resolve e1 e2 = true ↔
        (e1.summary = e2.summary ∧ e1.description = e2.description ∧
         resolve e1.start.dateTime e1.start.timeZone =
           resolve e2.start.dateTime e2.start.timeZone ∧
         resolve e1.«end».dateTime e1.«end».timeZone =
           resolve e2.«end».dateTime e2.«end».timeZone) := by
    intro e1 e2
    simp [eventsAreEqual, NormalizedEvent.mk.injEq]
  refine ⟨h1, ?_, ?_⟩
  · intro e1 e2 hs hd _ _ hr1 hr2
    exact (h1 e1 e2).mpr ⟨hs, hd, hr1, hr2⟩
  · intro tz tasks events ops eid ed hrun hop
    unfold runReconcile at hrun
    cases happ : applyTasks resolve tz tasks (buildIndex events) [] with
    | error er => rw [happ] at hrun; simp at hrun
    | ok p =>
      obtain ⟨ops1, m'⟩ := p
      rw [happ] at hrun
      simp only [Except.ok.injEq] at hrun
      rw [← hrun] at hop
      rcases List.mem_append.mp hop with hup | hdel
      · exact applyTasks_update_unequal resolve tz tasks
          (buildIndex events) ops1 m' happ eid ed hup
      · exfalso
        rcases List.mem_map.mp hdel with ⟨q, _, hq⟩
        simp at hq

theorem C8_witness :
    tzOnlyA.start.timeZone ≠ tzOnlyB.start.timeZone ∧
    tzOnlyA.uuid ≠ some tzOnlyB.uuid ∧
    eventsAreEqual lenResolve tzOnlyA tzOnlyB = true :=
  ⟨by decide, by decide,
    (C8_equality_comparator lenResolve).2.1 tzOnlyA tzOnlyB rfl rfl rfl rfl rfl rfl⟩

/-- C7: projection composes the summary from Origin and Name with the
completion marker exactly when the status indicates completion, lists
Difficulty, Priority and Notes on separate description lines, and embeds
the Task's identity; an unparseable combined due-date/due-time makes the
projection fail, which aborts the whole reconciliation run rather than
skipping the task; and on the end-to-end example (identity "a", name
"Essay", origin defaulted) against an empty store, exactly one create is
issued, with summary "Unknown: Essay" and embedded identity "a". -/
theorem C7_projection (resolve : String → String → Int) (tz : String) :
    (∀ (a : Task) (e : EventData), getEventData tz a = .ok e →
      e.summary = (if a.Status = "2 - Done" then "DONE - " else "") ++
        a.Origin ++ ": " ++ a.Name ∧
      e.description = "Difficulty: " ++ a.Difficulty ++ "\nPriority: " ++
        a.Priority ++ "\nNotes: " ++ a.Notes ∧
      e.uuid = a.UUID) ∧
    (∀ a : Task, momentParse (a.DueDate ++ "|" ++ a.DueTime) = none →
      ∃ msg, getEventData tz a = .error msg) ∧
    (∀ (ts1 ts2 : List Task) (t : Task) (events : List CalEvent),
      momentParse (t.DueDate ++ "|" ++ t.DueTime) = none →
      ∃ msg, runReconcile resolve tz (ts1 ++ t :: ts2) events = .error msg) ∧
    (runReconcile resolve tz [taskEssay] [] = .ok [Op.create (essayEvent tz)] ∧
      (essayEvent tz).summary = "Unknown: Essay" ∧
      (essayEvent tz).uuid = "a") := by
  have herr : ∀ a : Task, momentParse (a.DueDate ++ "|" ++ a.DueTime) = none →
      getEventData tz a =
        .error ("Moment could not parse time " ++ (a.DueDate ++ "|" ++ a.DueTime)) := by
    intro a hm
    unfold getEventData
    dsimp only
    rw [hm]
  refine ⟨?_, ?_, ?_, rfl, rfl, rfl⟩
  · intro a e h
    unfold getEventData at h
    dsimp only at h
    cases hm : momentParse (a.DueDate ++ "|" ++ a.DueTime) with
    | none => rw [hm] at h; simp at h
    | some iso =>
      rw [hm] at h
      simp only [Except.ok.injEq] at h
      rw [← h]
      exact ⟨rfl, rfl, rfl⟩
  · intro a hm
    exact ⟨_, herr a hm⟩
  · intro ts1 ts2 t events hm
    cases hr : runReconcile resolve tz (ts1 ++ t :: ts2) events with
    | error msg => exact ⟨msg, rfl⟩
    | ok ops =>
      exfalso
      have hmem : t ∈ ts1 ++ t :: ts2 :=
        List.mem_append.mpr (Or.inr (List.mem_cons_self _ _))
      obtain ⟨ed, hed⟩ := runReconcile_ok_all_parse resolve tz _ events ops hr t hmem
      rw [herr t hm] at hed
      simp at hed

theorem C7_witness :
    momentParse (taskBad.DueDate ++ "|" ++ taskBad.DueTime) = none ∧
    (∃ msg, getEventData "UTC" taskBad = .error msg) ∧
    (∃ msg, runReconcile lenResolve "UTC" ([] ++ taskBad :: []) [] = .error msg) := by
  refine ⟨by decide, ?_, ?_⟩
  · exact (C7_projection lenResolve "UTC").2.1 taskBad (by decide)
  · exact (C7_projection lenResolve "UTC").2.2.1 [] [] taskBad [] (by decide)

/-- C5: the retry governor invokes the operation at most `maxRetries`
times; its pre-jitter delays `baseDelay * 2 ^ attempt` strictly increase
across successive retries (for a positive base delay); a success or a
non-429 failure after k rate-limited attempts ends the loop at exactly
k + 1 invocations, the non-429 failure propagating as-is with no retry; and
`maxRetries` consecutive rate-limited failures produce the retry-exhausted
error after exactly `maxRetries` invocations, with no further attempt. -/
theorem C5_retry_governor (op : Nat → AttemptResult) (m bd : Nat)
    (hbd : 0 < bd) :
    (retryWithBackoff op m bd).2.1 ≤ m ∧
    List.Chain' (· < ·) (retryWithBackoff op m bd).2.2 ∧
    (∀ k v, k < m → (∀ j, j < k → op j = .failure (some 429)) →
      op k = .success v →
      retryWithBackoff op m bd =
        (.ok v, k + 1, (List.range k).map fun i => bd * 2 ^ i)) ∧
    (∀ k st, k < m → (∀ j, j < k → op j = .failure (some 429)) →
      op k = .failure st → st ≠ some 429 →
      retryWithBackoff op m bd =
        (.err st, k + 1, (List.range k).map fun i => bd * 2 ^ i)) ∧
    ((∀ j, j < m → op j = .failure (some 429)) →
      retryWithBackoff op m bd =
        (.exhausted, m, (List.range m).map fun i => bd * 2 ^ i)) := by
  refine ⟨retryAux_le op bd m 0, (retryAux_delays_lb op bd hbd m 0).1, ?_, ?_, ?_⟩
  · intro k v hk hrl hks
    unfold retryWithBackoff
    rw [show m = k + (m - k) by omega]
    rw [retryAux_skip op bd k (m - k) 0 (fun j hj => by simpa using hrl j hj)]
    rw [show m - k = (m - k - 1) + 1 by omega]
    simp only [Nat.zero_add, retryAux, hks]
    refine Prod.ext rfl (Prod.ext ?_ ?_)
    · simp only [Prod.snd, Prod.fst]; omega
    · simp [List.range_eq_range']
  · intro k st hk hrl hks hne
    unfold retryWithBackoff
    rw [show m = k + (m - k) by omega]
    rw [retryAux_skip op bd k (m - k) 0 (fun j hj => by simpa using hrl j hj)]
    rw [show m - k = (m - k - 1) + 1 by omega]
    simp only [Nat.zero_add, retryAux, hks]
    rw [if_neg hne]
    refine Prod.ext rfl (Prod.ext ?_ ?_)
    · simp only [Prod.snd, Prod.fst]; omega
    · simp [List.range_eq_range']
  · intro hrl
    unfold retryWithBackoff
    have h0 := retryAux_skip op bd m 0 0 (fun j hj => by simpa using hrl j hj)
    rw [Nat.add_zero] at h0
    simp only [retryAux, Nat.zero_add] at h0
    rw [h0]
    simp [List.range_eq_range']

theorem C5_witness :
    (0 : Nat) < 1000 ∧
    (∀ j, j < 2 → twoRateLimits j = .failure (some 429)) ∧
    twoRateLimits 2 = .success 7 ∧
    retryWithBackoff twoRateLimits 5 1000 = (.ok 7, 3, [1000, 2000]) := by
  refine ⟨by norm_num, by decide, by decide, ?_⟩
  have h := (C5_retry_governor twoRateLimits 5 1000 (by norm_num)).2.2.1 2 7
    (by norm_num) (by decide) (by decide)
  rw [h]
  rfl

/-- C3: idempotence — when the target store holds exactly the events a
previous reconciliation of the same Task set produced (each Task's identity
resolves in the index to an event semantically equal to its fresh
projection, every stored event belongs to some Task, and Task identities
are pairwise distinct), the second run issues zero creates, zero updates
and zero deletes. -/
theorem C3_idempotent (resolve : String → String → Int) (tz : String)
    (tasks : List Task) (events : List CalEvent)
    (hmatch : ∀ t ∈ tasks, ∃ ed ex, getEventData tz t = .ok ed ∧
      mapGet (buildIndex events) (some t.UUID) = some ex ∧
      eventsAreEqual resolve ex ed = true)
    (hcover : ∀ ev ∈ events, ∃ t ∈ tasks, ev.uuid = some t.UUID)
    (hnodup : (tasks.map Task.UUID).Nodup) :
    runReconcile resolve tz tasks events = .ok [] := by
  unfold runReconcile
  rw [applyTasks_all_equal resolve tz tasks (buildIndex events) hmatch hnodup]
  have hempty : tasks.foldl (fun acc t => mapDelete acc (some t.UUID))
      (buildIndex events) = [] := by
    rw [List.eq_nil_iff_forall_not_mem]
    intro p hp
    have hmem := mem_foldl_mapDelete tasks (buildIndex events)
      (keysNodup_buildIndex _) p hp
    obtain ⟨ev, hevmem, hevp⟩ := mem_buildIndex _ _ hmem.1
    obtain ⟨t, htmem, htu⟩ := hcover ev hevmem
    apply hmem.2 t htmem
    have hfst : p.1 = ev.uuid := by rw [hevp]
    rw [hfst, htu]
  rw [hempty]
  rfl

theorem C3_witness :
    runReconcile lenResolve "America/Detroit" [taskEssay]
      [essayStored "America/Detroit"] = .ok [] :=
  C3_idempotent lenResolve "America/Detroit" [taskEssay]
    [essayStored "America/Detroit"]
    (by
      intro t ht
      have heq : t = taskEssay := by simpa using ht
      subst heq
      exact ⟨essayEvent "America/Detroit", essayStored "America/Detroit",
        rfl, rfl, by decide⟩)
    (by
      intro ev hev
      have heq : ev = essayStored "America/Detroit" := by simpa using hev
      subst heq
      exact ⟨taskEssay, by simp, rfl⟩)
    (by decide)

/-- C10: when several store events share an embedded identity, the index
built by the reconciler retains, for each key, the last matching event of
the listing (`mapGet` returns the last element whose identity matches);
an event with a later duplicate is dropped during index construction — it
is not the index entry for its identity, and no update or delete issued by
a completed run addresses its event id. -/
theorem C10_duplicate_identities (resolve : String → String → Int)
    (tz : String) (tasks : List Task) :
    (∀ (events : List CalEvent) (k : Option String),
      mapGet (buildIndex events) k =
        (events.filter (fun x => x.uuid == k)).getLast?) ∧
    (∀ (l1 l2 : List CalEvent) (e e2 : CalEvent), e2 ∈ l2 →
      e2.uuid = e.uuid → ((l1 ++ e :: l2).map CalEvent.id).Nodup →
      mapGet (buildIndex (l1 ++ e :: l2)) e.uuid ≠ some e ∧
      ∀ ops, runReconcile resolve tz tasks (l1 ++ e :: l2) = .ok ops →
        ∀ op ∈ ops, op.targetId ≠ some e.id) := by
  refine ⟨fun events k => mapGet_buildIndex events k, ?_⟩
  intro l1 l2 e e2 he2 hu hids
  exact ⟨dropped_not_in_index l1 l2 e e2 he2 hu hids,
    dropped_untouched resolve tz tasks l1 l2 e e2 he2 hu hids⟩

theorem C10_witness :
    mapGet (buildIndex [dupA, dupB]) (some "x") = some dupB ∧
    mapGet (buildIndex ([] ++ dupA :: [dupB])) dupA.uuid ≠ some dupA ∧
    runReconcile lenResolve "UTC" [] [dupA, dupB] = .ok [Op.delete "d2"] ∧
    (Op.delete "d2").targetId ≠ some dupA.id := by
  have h := (C10_duplicate_identities lenResolve "UTC" []).2 [] [dupB] dupA dupB
    (by simp) rfl (by decide)
  refine ⟨rfl, h.1, rfl, ?_⟩
  exact h.2 [Op.delete "d2"] rfl (Op.delete "d2") (by simp)

/-- C2 counterexample: a store event with no recognizable embedded identity
is not left untouched — against an empty Task set the run deletes it in the
orphan sweep. -/
theorem C2_counterexample :
    strayEvent.uuid = none ∧
    runReconcile lenResolve "UTC" [] [strayEvent] = .ok [Op.delete "e1"] :=
  ⟨rfl, rfl⟩

/-- C2 amended: events lacking an embedded identity all share the missing
key of the index, so only the last such event of the listing is retained
there; the retained one is never matched against any Task — no update of a
completed run addresses it — but the orphan sweep of a completed run does
delete it; every earlier identity-less event is dropped from the index and
no operation of the run addresses its event id. -/
theorem C2_amended (resolve : String → String → Int) (tz : String)
    (tasks : List Task) (events : List CalEvent)
    (hids : (events.map CalEvent.id).Nodup) :
    (∀ e ∈ events, e.uuid = none →
      ∀ ops, runReconcile resolve tz tasks events = .ok ops →
        ∀ eid ed, Op.update eid ed ∈ ops → eid ≠ e.id) ∧
    (∀ e, mapGet (buildIndex events) none = some e →
      ∀ ops, runReconcile resolve tz tasks events = .ok ops →
        Op.delete e.id ∈ ops) ∧
    (∀ (l1 l2 : List CalEvent) (e e2 : CalEvent), events = l1 ++ e :: l2 →
      e.uuid = none → e2 ∈ l2 → e2.uuid = none →
      mapGet (buildIndex events) e.uuid ≠ some e ∧
      ∀ ops, runReconcile resolve tz tasks events = .ok ops →
        ∀ op ∈ ops, op.targetId ≠ some e.id) := by
  refine ⟨?_, ?_, ?_⟩
  · intro e he hu ops hrun eid ed hop
    exact none_key_never_updated resolve tz tasks events e he hu hids ops
      hrun eid ed hop
  · intro e hget ops hrun
    exact none_key_deleted resolve tz tasks events e hget ops hrun
  · intro l1 l2 e e2 hsplit hu he2 hu2
    subst hsplit
    exact ⟨dropped_not_in_index l1 l2 e e2 he2 (by rw [hu2, hu]) hids,
      dropped_untouched resolve tz tasks l1 l2 e e2 he2 (by rw [hu2, hu]) hids⟩

theorem C2_witness :
    ([strayEvent0, strayEvent].map CalEvent.id).Nodup ∧
    mapGet (buildIndex [strayEvent0, strayEvent]) none = some strayEvent ∧
    runReconcile lenResolve "UTC" [] [strayEvent0, strayEvent] =
      .ok [Op.delete "e1"] ∧
    Op.delete strayEvent.id ∈ [Op.delete "e1"] ∧
    (Op.delete "e1").targetId ≠ some strayEvent0.id := by
  refine ⟨by decide, rfl, rfl, ?_, ?_⟩
  · exact (C2_amended lenResolve "UTC" [] [strayEvent0, strayEvent]
      (by decide)).2.1 strayEvent rfl [Op.delete "e1"] rfl
  · exact ((C2_amended lenResolve "UTC" [] [strayEvent0, strayEvent]
      (by decide)).2.2 [] [strayEvent] strayEvent0 strayEvent rfl rfl
      (by simp) rfl).2 [Op.delete "e1"] rfl (Op.delete "e1") (by simp)

/-- C6 counterexample: on a full nine-cell row the third cell becomes the
Task's due-time and the fourth its due-date — the opposite of the claimed
positional order — both through the row mapping itself and through a whole
`getSpreadsheetData` run. -/
theorem C6_counterexample :
    (rowToTask "u" swapRow).DueTime = "c2" ∧
    (rowToTask "u" swapRow).DueDate = "c3" ∧
    ¬ ((rowToTask "u" swapRow).DueDate = "c2") ∧
    (getSpreadsheetData [swapRow] cexGen cexRereads).result =
      .ok [rowToTask "u" swapRow] := by
  refine ⟨rfl, rfl, by decide, rfl⟩

/-- C6 amended: a successful run yields one Task per row; every row of at
most 9 cells is padded to exactly 9; and each Task is built positionally
from its padded row with `"Unknown"` replacing empty cells — origin, name,
then due-TIME at position 2 and due-DATE at position 3 (the reverse of the
claimed order), then status, difficulty, priority, notes — while the
identity is the ninth cell when nonempty and otherwise the freshly
generated token whose index counts the preceding identity-less rows. -/
theorem C6_amended (raw : List (List String)) (gen : Nat → String)
    (rereads : Nat → List (List String)) (tasks : List Task)
    (h : (getSpreadsheetData raw gen rereads).result = .ok tasks) :
    tasks.length = raw.length ∧
    (∀ row ∈ raw, row.length ≤ 9 → (padRow row).length = 9) ∧
    (∀ i row, (normalizeValues raw).get? i = some row →
      ∃ t, tasks.get? i = some t ∧
        t.Origin = orUnknown (row.getD 0 "") ∧
        t.Name = orUnknown (row.getD 1 "") ∧
        t.DueTime = orUnknown (row.getD 2 "") ∧
        t.DueDate = orUnknown (row.getD 3 "") ∧
        t.Status = orUnknown (row.getD 4 "") ∧
        t.Difficulty = orUnknown (row.getD 5 "") ∧
        t.Priority = orUnknown (row.getD 6 "") ∧
        t.Notes = orUnknown (row.getD 7 "") ∧
        ((row.getD 8 "" ≠ "" ∧ t.UUID = row.getD 8 "") ∨
         (row.getD 8 "" = "" ∧
          t.UUID = gen (needyCount ((normalizeValues raw).take i))))) := by
  have hpad : ∀ row ∈ raw, row.length ≤ 9 → (padRow row).length = 9 := by
    intro row _ hlen
    simp only [padRow, List.length_append, List.length_replicate]
    omega
  unfold getSpreadsheetData at h
  dsimp only at h
  cases hp1 : (phase1 gen rereads (normalizeValues raw)
      (normalizeValues raw) 0 0 0).1 with
  | none => rw [hp1] at h; simp at h
  | some out =>
    obtain ⟨ts, pend, ck⟩ := out
    rw [hp1] at h
    dsimp only at h
    obtain ⟨h1, h2, h3, h4⟩ := phase1_ok gen rereads (normalizeValues raw)
      (normalizeValues raw) 0 0 0 (ts, pend, ck) hp1
    dsimp only at h1 h2 h3
    cases hb : (phase2 rereads pend (normalizeValues raw) ck).1 with
    | false => rw [hb] at h; simp at h
    | true =>
      rw [hb] at h
      simp only [if_true] at h
      have hts : ts = tasks := by simpa using h
      refine ⟨?_, hpad, ?_⟩
      · rw [← hts, h1, tasksOf_length]
        simp [normalizeValues]
      · intro i row hrow
        have hg := tasksOf_get gen (normalizeValues raw) 0 i row hrow
        refine ⟨rowToTask
          (if row.getD 8 "" = "" then
            gen (0 + needyCount ((normalizeValues raw).take i))
          else row.getD 8 "") row,
          by rw [← hts, h1]; exact hg, rfl, rfl, rfl, rfl, rfl, rfl, rfl, rfl, ?_⟩
        by_cases h8 : row.getD 8 "" = ""
        · refine Or.inr ⟨h8, ?_⟩
          show (if row.getD 8 "" = "" then
            gen (0 + needyCount ((normalizeValues raw).take i))
          else row.getD 8 "") = gen (needyCount ((normalizeValues raw).take i))
          rw [if_pos h8, Nat.zero_add]
        · refine Or.inl ⟨h8, ?_⟩
          show (if row.getD 8 "" = "" then
            gen (0 + needyCount ((normalizeValues raw).take i))
          else row.getD 8 "") = row.getD 8 ""
          rw [if_neg h8]

theorem C6_witness :
    (getSpreadsheetData okRaw cexGen okRereads).result =
      .ok [okTask0, okTask1] ∧
    ([okTask0, okTask1] : List Task).length = okRaw.length := by
  refine ⟨rfl, ?_⟩
  exact (C6_amended okRaw cexGen okRereads [okTask0, okTask1] rfl).1

/-- C4 counterexample: with two rows needing identities and an external
sheet that never changes (each re-read returns the content the run started
from), the run performs four guard checks — one when each needy row is
queued and one before each write attempt — and then aborts with the
concurrent-modification error, because the second pre-write comparison is
made against the snapshot updated with the run's own first write; the
claim would instead predict two checks (one per needy row) and no abort,
since no re-read ever differed from the start-of-run snapshot. -/
theorem C4_counterexample :
    needyCount (normalizeValues cexRaw) = 2 ∧
    (∀ k, k < 5 → cexRereads k = cexRaw) ∧
    (getSpreadsheetData cexRaw cexGen cexRereads).trace =
      [SheetOp.check, SheetOp.check, SheetOp.check, SheetOp.write 2 "u0",
        SheetOp.check] ∧
    (getSpreadsheetData cexRaw cexGen cexRereads).result =
      .error SheetErr.concurrentModification := by
  exact ⟨by decide, fun k _ => rfl, rfl, rfl⟩

/-- C4 amended: each row needing an identity incurs the freshness re-read
twice, once when it is queued during the normalization pass and once
immediately before its identity write, so a completed run's trace is the
queued rows' checks followed by check-write pairs in queue order; an
aborted run fails with the concurrent-modification error as its only
error, its performed writes are a prefix of the queued writes (no further
writes, no rollback), and its last step is the failed comparison. -/
theorem C4_amended (raw : List (List String)) (gen : Nat → String)
    (rereads : Nat → List (List String)) :
    (∀ tasks, (getSpreadsheetData raw gen rereads).result = .ok tasks →
      (getSpreadsheetData raw gen rereads).trace =
        List.replicate (needyCount (normalizeValues raw)) SheetOp.check ++
          (pendingOf gen (normalizeValues raw) 0 0).flatMap
            (fun p => [SheetOp.check, SheetOp.write p.1 p.2])) ∧
    (∀ err, (getSpreadsheetData raw gen rereads).result = .error err →
      err = SheetErr.concurrentModification ∧
      (∃ rest, writesOf (getSpreadsheetData raw gen rereads).trace ++ rest =
        pendingOf gen (normalizeValues raw) 0 0) ∧
      (getSpreadsheetData raw gen rereads).trace.getLast? =
        some SheetOp.check) := by
  unfold getSpreadsheetData
  dsimp only
  cases hp1 : (phase1 gen rereads (normalizeValues raw)
      (normalizeValues raw) 0 0 0).1 with
  | none =>
    obtain ⟨n, hn⟩ := phase1_err gen rereads (normalizeValues raw)
      (normalizeValues raw) 0 0 0 hp1
    refine ⟨fun tasks htasks => by simp at htasks, fun err herr => ?_⟩
    refine ⟨by cases err; rfl, ⟨pendingOf gen (normalizeValues raw) 0 0, ?_⟩, ?_⟩
    · dsimp only
      rw [hn, writesOf_replicate]
      rfl
    · dsimp only
      rw [hn, List.replicate_succ', List.getLast?_concat]
  | some out =>
    obtain ⟨ts, pend, ck⟩ := out
    dsimp only
    obtain ⟨h1, h2, h3, h4⟩ := phase1_ok gen rereads (normalizeValues raw)
      (normalizeValues raw) 0 0 0 (ts, pend, ck) hp1
    dsimp only at h1 h2 h3
    cases hb : (phase2 rereads pend (normalizeValues raw) ck).1 with
    | true =>
      have htr := phase2_ok rereads pend (normalizeValues raw) ck hb
      rw [if_pos rfl]
      refine ⟨fun tasks _ => ?_, fun err herr => by simp at herr⟩
      dsimp only
      rw [h4, htr, h2]
      have hlen : (pendingOf gen (normalizeValues raw) 0 0).length =
          needyCount (normalizeValues raw) :=
        pendingOf_length gen (normalizeValues raw) 0 0
      rw [hlen]
    | false =>
      obtain ⟨pre, rest, hsplit, htr⟩ := phase2_err rereads pend
        (normalizeValues raw) ck hb
      rw [if_neg (by simp)]
      refine ⟨fun tasks htasks => by simp at htasks, fun err herr => ?_⟩
      refine ⟨by cases err; rfl, ⟨rest, ?_⟩, ?_⟩
      · dsimp only
        rw [h4, htr, writesOf_append, writesOf_replicate, writesOf_append,
          writesOf_bind]
        have hw : writesOf [SheetOp.check] = [] := rfl
        rw [hw, ← h2, hsplit]
        simp
      · dsimp only
        rw [h4, htr, ← List.append_assoc, List.getLast?_concat]

theorem C4_witness :
    (getSpreadsheetData okRaw cexGen okRereads).result = .ok [okTask0, okTask1] ∧
    (getSpreadsheetData okRaw cexGen okRereads).trace =
      List.replicate (needyCount (normalizeValues okRaw)) SheetOp.check ++
        (pendingOf cexGen (normalizeValues okRaw) 0 0).flatMap
          (fun p => [SheetOp.check, SheetOp.write p.1 p.2]) :=
  ⟨rfl, (C4_amended okRaw cexGen okRereads).1 [okTask0, okTask1] rfl⟩

end AssignmentsSync
